import Mathlib

/-!
Verification of the prime-agent document segmentation and sync core.

Text is modelled as `List Char`; a line is a `List Char` that contains no
newline character.  The definitions below are shallow embeddings of the
functions in `src/agents_md.rs` and `src/sync.rs`.
-/

set_option maxRecDepth 4000

namespace PrimeAgent

/-- A text or a line, as a sequence of characters. -/
abbrev Chars := List Char

/-- Whitespace characters recognised by trimming (space, tab, CR, LF). -/
def isWs (c : Char) : Bool :=
  c == ' ' || c == '\t' || c == '\n' || c == '\r'

/-- Remove trailing whitespace, as Rust's `str::trim_end`. -/
def trimEnd (l : Chars) : Chars :=
  (l.reverse.dropWhile isWs).reverse

/-- Remove leading and trailing whitespace, as Rust's `str::trim`. -/
def trimBoth (l : Chars) : Chars :=
  trimEnd (l.dropWhile isWs)

/-- The fixed prefix of a start marker line. -/
def startPre : Chars := "<!-- prime-agent(Start ".toList

/-- The fixed prefix of an end marker line. -/
def endPre : Chars := "<!-- prime-agent(End ".toList

/-- The fixed suffix of both marker lines. -/
def closeSuf : Chars := ") -->".toList

/-- `start_marker` from `agents_md.rs`. -/
def startMarker (name : Chars) : Chars :=
  startPre ++ name ++ closeSuf

/-- `end_marker` from `agents_md.rs`. -/
def endMarker (name : Chars) : Chars :=
  endPre ++ name ++ closeSuf

/-- The header line expected after a start marker: `"## " + name`. -/
def headerFor (name : Chars) : Chars :=
  "## ".toList ++ name

/-- `parse_start_marker` from `agents_md.rs`: recognise a start marker line
and extract the (trimmed) section name. -/
def parseStartMarker (line : Chars) : Option Chars :=
  if startPre.isPrefixOf line && closeSuf.isSuffixOf line then
    let mid := (line.drop startPre.length).take
      (line.length - startPre.length - closeSuf.length)
    let name := trimBoth mid
    if name = [] then none else some name
  else none

/-- `is_end_marker` from `agents_md.rs`. -/
def isEndMarker (line name : Chars) : Bool :=
  trimEnd line = endMarker name

/-- `split_preserve_trailing_newline` from `agents_md.rs`: empty input gives
no lines, otherwise split on every newline. -/
def splitPTN (contents : Chars) : List Chars :=
  if contents = [] then [] else contents.splitOn '\n'

/-- Join lines with single newline separators (Rust `Vec::join("\n")`). -/
def joinNL (lines : List Chars) : Chars :=
  List.intercalate ['\n'] lines

/-- `AgentSection` from `agents_md.rs`. -/
structure AgentSection where
  name : Chars
  content_lines : List Chars
deriving DecidableEq, Repr

/-- `AgentSection::from_content`. -/
def AgentSection.fromContent (name : Chars) (content : Chars) : AgentSection :=
  ⟨name, splitPTN content⟩

/-- `AgentSection::content_string`. -/
def AgentSection.contentString (s : AgentSection) : Chars :=
  joinNL s.content_lines

/-- `DocSegment` from `agents_md.rs`: a free-text span or a named section. -/
inductive DocSegment where
  | text : List Chars → DocSegment
  | sec : AgentSection → DocSegment
deriving DecidableEq, Repr

/-- `AgentsDoc` from `agents_md.rs`. -/
structure AgentsDoc where
  segments : List DocSegment
deriving DecidableEq, Repr

/-- `AgentsDoc::empty`. -/
def AgentsDoc.empty : AgentsDoc := ⟨[]⟩

/-- Prepend the accumulated text span, if nonempty, to a segment list
(the `text_lines` flushes in `AgentsDoc::parse`). -/
def flushText (acc : List Chars) (segs : List DocSegment) : List DocSegment :=
  if acc = [] then segs else DocSegment.text acc :: segs

/-- The same flush on a reversed segment list. -/
def flushRev (acc : List Chars) (segsRev : List DocSegment) : List DocSegment :=
  if acc = [] then segsRev else DocSegment.text acc :: segsRev

/-- The scanning mode of `AgentsDoc::parse`: at the top level, expecting the
header line right after a start marker, or inside a section body. -/
inductive PMode where
  | top : PMode
  | expectHeader : Chars → PMode
  | inSec : Chars → List Chars → PMode
deriving DecidableEq, Repr

/-- The loop state of `AgentsDoc::parse`: segments emitted so far (in
reverse), accumulated text lines, and the scanning mode. -/
structure PState where
  segsRev : List DocSegment
  acc : List Chars
  mode : PMode
deriving DecidableEq, Repr

/-- One iteration of the scanning loop of `AgentsDoc::parse`, consuming one
line.  `none` models the "expected header ... found ..." bail. -/
def parseStep (st : PState) (l : Chars) : Option PState :=
  match st.mode with
  | PMode.top =>
    match parseStartMarker l with
    | some name =>
      some ⟨flushRev st.acc st.segsRev, [], PMode.expectHeader name⟩
    | none => some ⟨st.segsRev, st.acc ++ [l], PMode.top⟩
  | PMode.expectHeader name =>
    if trimEnd l = headerFor name then some ⟨st.segsRev, st.acc, PMode.inSec name []⟩
    else none
  | PMode.inSec name content =>
    if isEndMarker l name then
      some ⟨DocSegment.sec ⟨name, content⟩ :: st.segsRev, st.acc, PMode.top⟩
    else some ⟨st.segsRev, st.acc, PMode.inSec name (content ++ [l])⟩

/-- Run the scanning loop of `AgentsDoc::parse` over all lines. -/
def parseFold (st : PState) : List Chars → Option PState
  | [] => some st
  | l :: rest =>
    match parseStep st l with
    | none => none
    | some st' => parseFold st' rest

/-- After the loop: reaching the end of input while a header is expected
models "missing section header after start marker", and while inside a
section body models "missing end marker"; otherwise flush the trailing text
lines. -/
def parseFinish (st : PState) : Option (List DocSegment) :=
  match st.mode with
  | PMode.top => some (st.segsRev.reverse ++ flushText st.acc [])
  | PMode.expectHeader _ => none
  | PMode.inSec _ _ => none

/-- The initial state of the scanning loop. -/
def pInit : PState := ⟨[], [], PMode.top⟩

/-- Parse a list of lines into segments (`AgentsDoc::parse` after line
splitting); `none` models a `FormatError`. -/
def parseLines (ls : List Chars) : Option (List DocSegment) :=
  match parseFold pInit ls with
  | none => none
  | some st => parseFinish st

/-- `AgentsDoc::parse`: `none` models a `FormatError`. -/
def AgentsDoc.parse (contents : Chars) : Option AgentsDoc :=
  (parseLines (splitPTN contents)).map AgentsDoc.mk

/-- The names of the section segments of a segment list, in order. -/
def sectionNamesL (segs : List DocSegment) : List Chars :=
  segs.filterMap fun seg =>
    match seg with
    | DocSegment.sec s => some s.name
    | DocSegment.text _ => none

/-- `AgentsDoc::section_names`. -/
def AgentsDoc.sectionNames (d : AgentsDoc) : List Chars :=
  sectionNamesL d.segments

/-- Whether a segment is a section segment. -/
def isSecB : DocSegment → Bool
  | DocSegment.sec _ => true
  | DocSegment.text _ => false

/-- The first section with the given name in a segment list. -/
def getSectionL : List DocSegment → Chars → Option AgentSection
  | [], _ => none
  | DocSegment.sec s :: rest, name =>
    if s.name = name then some s else getSectionL rest name
  | DocSegment.text _ :: rest, name => getSectionL rest name

/-- `AgentsDoc::get_section`: the first section with the given name. -/
def AgentsDoc.getSection (d : AgentsDoc) (name : Chars) : Option AgentSection :=
  getSectionL d.segments name

/-- The replace-in-place loop of `AgentsDoc::upsert_section`: replace the
first section with a matching name, or report `none` if there is none. -/
def replaceFirstSection (s : AgentSection) : List DocSegment → Option (List DocSegment)
  | [] => none
  | DocSegment.sec x :: rest =>
    if x.name = s.name then some (DocSegment.sec s :: rest)
    else (replaceFirstSection s rest).map (DocSegment.sec x :: ·)
  | DocSegment.text tl :: rest =>
    (replaceFirstSection s rest).map (DocSegment.text tl :: ·)

/-- The `rposition` call of `AgentsDoc::upsert_section`: the index of the
last section segment. -/
def lastSectionIdx : List DocSegment → Option Nat
  | [] => none
  | seg :: rest =>
    match lastSectionIdx rest with
    | some k => some (k + 1)
    | none =>
      match seg with
      | DocSegment.sec _ => some 0
      | DocSegment.text _ => none

/-- `AgentsDoc::upsert_section`. -/
def AgentsDoc.upsertSection (d : AgentsDoc) (s : AgentSection) : AgentsDoc :=
  match replaceFirstSection s d.segments with
  | some segs => ⟨segs⟩
  | none =>
    match lastSectionIdx d.segments with
    | some k => ⟨d.segments.insertIdx (k + 1) (DocSegment.sec s)⟩
    | none => ⟨d.segments ++ [DocSegment.sec s]⟩

/-- `AgentsDoc::remove_section` (the retained segment list; the returned
boolean of the Rust function is whether the length changed). -/
def AgentsDoc.removeSection (d : AgentsDoc) (name : Chars) : AgentsDoc :=
  ⟨d.segments.filter fun seg =>
    match seg with
    | DocSegment.sec s => s.name ≠ name
    | DocSegment.text _ => true⟩

/-- The lines emitted by one segment in `AgentsDoc::render`. -/
def segLines : DocSegment → List Chars
  | DocSegment.text tl => tl
  | DocSegment.sec s =>
    startMarker s.name :: headerFor s.name :: s.content_lines ++ [endMarker s.name]

/-- All lines emitted by `AgentsDoc::render`, before joining. -/
def renderLines (segs : List DocSegment) : List Chars :=
  (segs.map segLines).flatten

/-- `AgentsDoc::render`. -/
def AgentsDoc.render (d : AgentsDoc) : Chars :=
  joinNL (renderLines d.segments)

/-! ### Canonical parsing and the render round trip

`parseStepC` accepts exactly the inputs `parseStep` accepts whose marker and
header lines are byte-identical to the rendered form (no surrounding
whitespace in the start marker's name, no trailing whitespace on the header
or end marker line). -/

/-- Strict variant of `parseStep`: additionally requires each accepted
marker or header line to be in canonical (rendered) form. -/
def parseStepC (st : PState) (l : Chars) : Option PState :=
  match st.mode with
  | PMode.top =>
    match parseStartMarker l with
    | some name =>
      if l = startMarker name then
        some ⟨flushRev st.acc st.segsRev, [], PMode.expectHeader name⟩
      else none
    | none => some ⟨st.segsRev, st.acc ++ [l], PMode.top⟩
  | PMode.expectHeader name =>
    if trimEnd l = headerFor name ∧ l = headerFor name then
      some ⟨st.segsRev, st.acc, PMode.inSec name []⟩
    else none
  | PMode.inSec name content =>
    if isEndMarker l name then
      if l = endMarker name then
        some ⟨DocSegment.sec ⟨name, content⟩ :: st.segsRev, st.acc, PMode.top⟩
      else none
    else some ⟨st.segsRev, st.acc, PMode.inSec name (content ++ [l])⟩

/-- Strict variant of `parseFold`. -/
def parseFoldC (st : PState) : List Chars → Option PState
  | [] => some st
  | l :: rest =>
    match parseStepC st l with
    | none => none
    | some st' => parseFoldC st' rest

/-- Strict variant of `parseLines`. -/
def parseLinesC (ls : List Chars) : Option (List DocSegment) :=
  match parseFoldC pInit ls with
  | none => none
  | some st => parseFinish st

/-- Strict variant of `AgentsDoc.parse`, accepting only canonical texts. -/
def AgentsDoc.parseC (contents : Chars) : Option AgentsDoc :=
  (parseLinesC (splitPTN contents)).map AgentsDoc.mk

/-- The lines a scanning state stands for while being replayed. -/
def modeLines : PMode → List Chars
  | PMode.top => []
  | PMode.expectHeader name => [startMarker name]
  | PMode.inSec name content => startMarker name :: headerFor name :: content

/-- The input lines already consumed by a scanning state, as reproduced by
`render`. -/
def replay (st : PState) : List Chars :=
  renderLines st.segsRev.reverse ++ st.acc ++ modeLines st.mode

/-- Outside top-level mode the text accumulator is empty. -/
def stateInv (st : PState) : Prop :=
  st.mode ≠ PMode.top → st.acc = []

theorem renderLines_append (a b : List DocSegment) :
    renderLines (a ++ b) = renderLines a ++ renderLines b := by
  simp [renderLines]

theorem parseStepC_sound {st : PState} {l : Chars} {st' : PState}
    (hinv : stateInv st) (h : parseStepC st l = some st') :
    parseStep st l = some st' ∧ stateInv st' ∧ replay st' = replay st ++ [l] := by
  obtain ⟨sr, acc, mode⟩ := st
  cases mode with
  | top =>
    cases hm : parseStartMarker l with
    | some name =>
      simp only [parseStepC, hm] at h
      split at h
      · rename_i hcanon
        simp only [Option.some.injEq] at h
        subst h
        refine ⟨by simp [parseStep, hm], by simp [stateInv], ?_⟩
        simp only [replay, modeLines, flushRev]
        split
        · rename_i hacc
          subst hacc
          simp [hcanon]
        · simp only [List.reverse_cons, renderLines_append]
          simp [renderLines, segLines, hcanon]
      · exact absurd h (by simp)
    | none =>
      simp only [parseStepC, hm, Option.some.injEq] at h
      subst h
      refine ⟨by simp [parseStep, hm], by simp [stateInv], ?_⟩
      simp [replay, modeLines]
  | expectHeader name =>
    simp only [parseStepC] at h
    split at h
    · rename_i hcond
      simp only [Option.some.injEq] at h
      subst h
      have hacc : acc = [] := hinv (by simp)
      subst hacc
      refine ⟨by simp [parseStep, hcond.1], by simp [stateInv], ?_⟩
      simp [replay, modeLines, hcond.2]
    · exact absurd h (by simp)
  | inSec name content =>
    simp only [parseStepC] at h
    have hacc : acc = [] := hinv (by simp)
    subst hacc
    split at h
    · rename_i hend
      split at h
      · rename_i hcanon
        simp only [Option.some.injEq] at h
        subst h
        refine ⟨by simp [parseStep, hend], by simp [stateInv], ?_⟩
        simp only [replay, modeLines, List.reverse_cons, renderLines_append]
        simp [renderLines, segLines, hcanon]
      · exact absurd h (by simp)
    · rename_i hend
      simp only [Option.some.injEq] at h
      subst h
      refine ⟨by simp [parseStep, hend], by simp [stateInv], ?_⟩
      simp [replay, modeLines]

theorem parseFoldC_sound :
    ∀ {ls : List Chars} {st st' : PState}, stateInv st →
      parseFoldC st ls = some st' →
      parseFold st ls = some st' ∧ stateInv st' ∧ replay st' = replay st ++ ls := by
  intro ls
  induction ls with
  | nil =>
    intro st st' hinv h
    simp only [parseFoldC, Option.some.injEq] at h
    subst h
    simp [parseFold, hinv]
  | cons l rest ih =>
    intro st st' hinv h
    simp only [parseFoldC] at h
    cases hs : parseStepC st l with
    | none => rw [hs] at h; simp at h
    | some st1 =>
      rw [hs] at h
      obtain ⟨hstep, hinv1, hrep1⟩ := parseStepC_sound hinv hs
      obtain ⟨hfold, hinv', hrep⟩ := ih hinv1 h
      refine ⟨?_, hinv', ?_⟩
      · simp [parseFold, hstep, hfold]
      · rw [hrep, hrep1]
        simp

theorem parseFinish_render {st : PState} {segs : List DocSegment}
    (h : parseFinish st = some segs) :
    renderLines segs = replay st := by
  obtain ⟨sr, acc, mode⟩ := st
  cases mode with
  | top =>
    simp only [parseFinish, Option.some.injEq] at h
    subst h
    simp only [replay, modeLines, renderLines_append, flushText]
    split
    · rename_i hacc; subst hacc; simp [renderLines]
    · simp [renderLines, segLines]
  | expectHeader name => simp [parseFinish] at h
  | inSec name content => simp [parseFinish] at h

/-- The strict parser agrees with the parser, and the parsed lines render
back exactly. -/
theorem parseLinesC_sound {ls : List Chars} {segs : List DocSegment}
    (h : parseLinesC ls = some segs) :
    parseLines ls = some segs ∧ renderLines segs = ls := by
  simp only [parseLinesC] at h
  cases hf : parseFoldC pInit ls with
  | none => rw [hf] at h; simp at h
  | some st =>
    rw [hf] at h
    replace h : parseFinish st = some segs := h
    obtain ⟨hfold, _, hrep⟩ := parseFoldC_sound (by simp [stateInv, pInit]) hf
    refine ⟨by simp [parseLines, hfold, h], ?_⟩
    rw [parseFinish_render h, hrep]
    simp [replay, pInit, renderLines, modeLines]

theorem joinNL_nil : joinNL [] = [] := by
  simp [joinNL, List.intercalate]

theorem joinNL_splitPTN (contents : Chars) :
    joinNL (splitPTN contents) = contents := by
  by_cases hc : contents = []
  · subst hc; simp [splitPTN, joinNL_nil]
  · simp only [splitPTN, if_neg hc, joinNL]
    exact List.intercalate_splitOn contents '\n'

theorem parse_render_roundtrip_canonical {contents : Chars} {d : AgentsDoc}
    (h : AgentsDoc.parseC contents = some d) :
    AgentsDoc.parse contents = some d ∧ d.render = contents := by
  simp only [AgentsDoc.parseC, Option.map_eq_some'] at h
  obtain ⟨segs, hsegs, hd⟩ := h
  obtain ⟨hparse, hrender⟩ := parseLinesC_sound hsegs
  subst hd
  refine ⟨by simp [AgentsDoc.parse, hparse], ?_⟩
  simp only [AgentsDoc.render, hrender]
  exact joinNL_splitPTN contents

/-- A text accepted by `AgentsDoc.parse` whose header line carries a
trailing space; `render` of the parsed document drops that space. -/
def c1BadText : Chars :=
  "<!-- prime-agent(Start a) -->\n## a \n<!-- prime-agent(End a) -->".toList

/-- C1, counterexample: a text that `AgentsDoc.parse` accepts without error
(its header line is `"## a "` with a trailing space) but for which `render`
of the parsed document is not the input text byte for byte. -/
theorem c1_roundtrip_counterexample :
    (AgentsDoc.parse c1BadText).isSome = true ∧
      ¬ (AgentsDoc.parse c1BadText).map AgentsDoc.render = some c1BadText := by
  constructor
  · decide
  · decide

/-- A canonical sample text and its parsed document. -/
def c1GoodText : Chars :=
  "intro\n<!-- prime-agent(Start a) -->\n## a\nX\n<!-- prime-agent(End a) -->".toList

/-- The document `c1GoodText` parses to. -/
def c1GoodDoc : AgentsDoc :=
  ⟨[DocSegment.text ["intro".toList],
    DocSegment.sec ⟨"a".toList, ["X".toList]⟩]⟩

/-- C1 (corrected): for every text that `AgentsDoc.parse` accepts without
error and in which every start marker line, header line and end marker line
is byte-identical to its rendered form (no surrounding whitespace in the
start marker's name, no trailing whitespace on the header or end marker
line), `render` of the parsed document returns exactly the input text, byte
for byte. -/
theorem c1_roundtrip_amended {contents : Chars} {d : AgentsDoc}
    (h : AgentsDoc.parseC contents = some d) :
    AgentsDoc.parse contents = some d ∧ d.render = contents :=
  parse_render_roundtrip_canonical h

/-- C1, witness: the round trip at a concrete canonical text. -/
theorem c1_roundtrip_witness :
    AgentsDoc.parse c1GoodText = some c1GoodDoc ∧
      AgentsDoc.render c1GoodDoc = c1GoodText :=
  c1_roundtrip_amended (by decide)

/-! ### Characterisation of parse failures (C8) -/

/-- The run of the parser's scanning loop from an arbitrary state. -/
def runP (st : PState) (ls : List Chars) : Option (List DocSegment) :=
  match parseFold st ls with
  | none => none
  | some st' => parseFinish st'

theorem runP_nil (st : PState) : runP st [] = parseFinish st := rfl

theorem runP_cons (st : PState) (l : Chars) (ls : List Chars) :
    runP st (l :: ls) =
      match parseStep st l with
      | none => none
      | some st' => runP st' ls := by
  simp only [runP, parseFold]
  cases parseStep st l <;> rfl

theorem runP_cons_some {st st' : PState} {l : Chars} (ls : List Chars)
    (h : parseStep st l = some st') : runP st (l :: ls) = runP st' ls := by
  rw [runP_cons, h]

theorem runP_cons_none {st : PState} {l : Chars} (ls : List Chars)
    (h : parseStep st l = none) : runP st (l :: ls) = none := by
  rw [runP_cons, h]

theorem parseLines_eq_runP (ls : List Chars) : parseLines ls = runP pInit ls := rfl

/-- When `AgentsDoc::parse` fails, following the spec's description of the
scan: after skipping over free-text lines and well-formed sections, a start
marker is found whose very next line is absent (`noHeader`) or is not the
expected header line (`badHeader`), or whose matching end marker is never
found before the end of the input (`noEnd`). -/
inductive ParseFails : List Chars → Prop where
  | noHeader (l name : Chars) :
      parseStartMarker l = some name → ParseFails [l]
  | badHeader (l hdr name : Chars) (rest : List Chars) :
      parseStartMarker l = some name → trimEnd hdr ≠ headerFor name →
      ParseFails (l :: hdr :: rest)
  | noEnd (l hdr name : Chars) (rest : List Chars) :
      parseStartMarker l = some name → trimEnd hdr = headerFor name →
      (∀ x ∈ rest, isEndMarker x name = false) →
      ParseFails (l :: hdr :: rest)
  | skipText (l : Chars) (ls : List Chars) :
      parseStartMarker l = none → ParseFails ls → ParseFails (l :: ls)
  | skipSec (l hdr endl name : Chars) (content ls : List Chars) :
      parseStartMarker l = some name → trimEnd hdr = headerFor name →
      (∀ x ∈ content, isEndMarker x name = false) →
      isEndMarker endl name = true →
      ParseFails ls → ParseFails (l :: hdr :: (content ++ endl :: ls))

theorem parseFails_not_nil : ¬ ParseFails [] := by
  intro h
  cases h

theorem runP_insec_none_iff :
    ∀ (ls : List Chars) (sr : List DocSegment) (name : Chars) (content : List Chars),
      runP ⟨sr, [], PMode.inSec name content⟩ ls = none ↔
        ((∀ x ∈ ls, isEndMarker x name = false) ∨
          ∃ c endl rest, ls = c ++ endl :: rest ∧
            (∀ x ∈ c, isEndMarker x name = false) ∧
            isEndMarker endl name = true ∧
            runP ⟨DocSegment.sec ⟨name, content ++ c⟩ :: sr, [], PMode.top⟩ rest = none) := by
  intro ls
  induction ls with
  | nil =>
    intro sr name content
    constructor
    · intro _
      exact Or.inl (by simp)
    · intro _
      rfl
  | cons l rest ih =>
    intro sr name content
    cases hend : isEndMarker l name with
    | true =>
      rw [runP_cons_some rest
        (show parseStep ⟨sr, [], PMode.inSec name content⟩ l =
          some ⟨DocSegment.sec ⟨name, content⟩ :: sr, [], PMode.top⟩ from by
            simp [parseStep, hend])]
      constructor
      · intro h
        refine Or.inr ⟨[], l, rest, by simp, by simp, hend, ?_⟩
        simpa using h
      · intro h
        rcases h with h | ⟨c, endl, rest', heq, hfree, hendl, hrun⟩
        · exact absurd (h l (by simp)) (by simp [hend])
        · cases c with
          | nil =>
            simp only [List.nil_append, List.cons.injEq] at heq
            obtain ⟨rfl, rfl⟩ := heq
            simpa using hrun
          | cons x c' =>
            simp only [List.cons_append, List.cons.injEq] at heq
            obtain ⟨rfl, _⟩ := heq
            exact absurd (hfree l (by simp)) (by simp [hend])
    | false =>
      rw [runP_cons_some rest
        (show parseStep ⟨sr, [], PMode.inSec name content⟩ l =
          some ⟨sr, [], PMode.inSec name (content ++ [l])⟩ from by
            simp [parseStep, hend])]
      rw [ih sr name (content ++ [l])]
      constructor
      · intro h
        rcases h with h | ⟨c', endl, rest', heq, hfree, hendl, hrun⟩
        · refine Or.inl ?_
          intro x hx
          rcases List.mem_cons.mp hx with rfl | hx
          · exact hend
          · exact h x hx
        · refine Or.inr ⟨l :: c', endl, rest', by simp [heq], ?_, hendl, ?_⟩
          · intro x hx
            rcases List.mem_cons.mp hx with rfl | hx
            · exact hend
            · exact hfree x hx
          · simpa [List.append_assoc] using hrun
      · intro h
        rcases h with h | ⟨c, endl, rest', heq, hfree, hendl, hrun⟩
        · exact Or.inl fun x hx => h x (by simp [hx])
        · cases c with
          | nil =>
            simp only [List.nil_append, List.cons.injEq] at heq
            obtain ⟨rfl, _⟩ := heq
            exact absurd hendl (by simp [hend])
          | cons x c' =>
            simp only [List.cons_append, List.cons.injEq] at heq
            obtain ⟨rfl, rfl⟩ := heq
            refine Or.inr ⟨c', endl, rest', rfl, ?_, hendl, ?_⟩
            · exact fun y hy => hfree y (by simp [hy])
            · simpa [List.append_assoc] using hrun

theorem runP_top_none_iff :
    ∀ (n : Nat) (ls : List Chars), ls.length ≤ n →
      ∀ (sr : List DocSegment) (acc : List Chars),
        (runP ⟨sr, acc, PMode.top⟩ ls = none ↔ ParseFails ls) := by
  intro n
  induction n with
  | zero =>
    intro ls hlen sr acc
    have : ls = [] := List.length_eq_zero.mp (Nat.le_zero.mp hlen)
    subst this
    simp [runP_nil, parseFinish, parseFails_not_nil]
  | succ n ih =>
    intro ls hlen sr acc
    cases ls with
    | nil => simp [runP_nil, parseFinish, parseFails_not_nil]
    | cons l rest =>
      cases hm : parseStartMarker l with
      | none =>
        rw [runP_cons_some rest
          (show parseStep ⟨sr, acc, PMode.top⟩ l = some ⟨sr, acc ++ [l], PMode.top⟩ from by
            simp [parseStep, hm])]
        rw [ih rest (by simpa using Nat.le_of_succ_le_succ hlen)]
        constructor
        · intro h
          exact ParseFails.skipText l rest hm h
        · intro h
          cases h with
          | noHeader _ _ hm' => rw [hm'] at hm; exact absurd hm (by simp)
          | badHeader _ _ _ _ hm' _ => rw [hm'] at hm; exact absurd hm (by simp)
          | noEnd _ _ _ _ hm' _ _ => rw [hm'] at hm; exact absurd hm (by simp)
          | skipText _ _ _ hf => exact hf
          | skipSec _ _ _ _ _ _ hm' _ _ _ _ => rw [hm'] at hm; exact absurd hm (by simp)
      | some name =>
        rw [runP_cons_some rest
          (show parseStep ⟨sr, acc, PMode.top⟩ l =
            some ⟨flushRev acc sr, [], PMode.expectHeader name⟩ from by
              simp [parseStep, hm])]
        cases rest with
        | nil =>
          rw [runP_nil]
          constructor
          · intro _
            exact ParseFails.noHeader l name hm
          · intro _
            rfl
        | cons hdr rest2 =>
          by_cases hh : trimEnd hdr = headerFor name
          · rw [runP_cons_some rest2
              (show parseStep ⟨flushRev acc sr, [], PMode.expectHeader name⟩ hdr =
                some ⟨flushRev acc sr, [], PMode.inSec name []⟩ from by
                  simp [parseStep, hh])]
            rw [runP_insec_none_iff rest2 (flushRev acc sr) name []]
            constructor
            · intro h
              rcases h with h | ⟨c, endl, rest3, heq, hfree, hendl, hrun⟩
              · exact ParseFails.noEnd l hdr name rest2 hm hh h
              · subst heq
                have hlen3 : rest3.length ≤ n := by
                  simp only [List.length_cons, List.length_append] at hlen ⊢
                  omega
                rw [ih rest3 hlen3] at hrun
                exact ParseFails.skipSec l hdr endl name c rest3 hm hh hfree hendl hrun
            · intro h
              cases h with
              | badHeader _ _ _ _ hm' hh' =>
                rw [hm'] at hm
                injection hm with hm
                subst hm
                exact absurd hh hh'
              | noEnd _ _ _ _ hm' hh' hfree =>
                rw [hm'] at hm
                injection hm with hm
                subst hm
                exact Or.inl hfree
              | skipText _ _ hm' _ => rw [hm'] at hm; exact absurd hm (by simp)
              | skipSec _ _ endl _ content ls' hm' hh' hfree hendl hf =>
                rw [hm'] at hm
                injection hm with hm
                subst hm
                refine Or.inr ⟨content, endl, ls', rfl, hfree, hendl, ?_⟩
                have hlen3 : ls'.length ≤ n := by
                  simp only [List.length_cons, List.length_append] at hlen ⊢
                  omega
                rw [ih ls' hlen3]
                exact hf
          · rw [runP_cons_none rest2
              (show parseStep ⟨flushRev acc sr, [], PMode.expectHeader name⟩ hdr = none from by
                simp [parseStep, hh])]
            constructor
            · intro _
              exact ParseFails.badHeader l hdr name rest2 hm hh
            · intro _
              rfl

/-- C8: `AgentsDoc.parse` fails (with a `FormatError`) exactly when,
scanning the input, a start marker is found whose immediately following
line is absent or is not the expected header line `"## " + name`, or whose
matching end marker does not appear before the end of the input; on every
other input, parse succeeds. -/
theorem c8_parse_fails_iff (contents : Chars) :
    AgentsDoc.parse contents = none ↔ ParseFails (splitPTN contents) := by
  have h := runP_top_none_iff (splitPTN contents).length (splitPTN contents)
    (Nat.le_refl _) [] []
  simp only [AgentsDoc.parse, Option.map_eq_none']
  rw [parseLines_eq_runP]
  exact h

/-! ### Characterisation of `upsert_section` and `remove_section` (C5, C6) -/

theorem sectionNamesL_append (a b : List DocSegment) :
    sectionNamesL (a ++ b) = sectionNamesL a ++ sectionNamesL b := by
  simp [sectionNamesL]

theorem sectionNamesL_cons_sec (s : AgentSection) (segs : List DocSegment) :
    sectionNamesL (DocSegment.sec s :: segs) = s.name :: sectionNamesL segs := rfl

theorem sectionNamesL_cons_text (tl : List Chars) (segs : List DocSegment) :
    sectionNamesL (DocSegment.text tl :: segs) = sectionNamesL segs := rfl

theorem replaceFirst_eq_none_iff {s : AgentSection} :
    ∀ {segs : List DocSegment},
      replaceFirstSection s segs = none ↔ s.name ∉ sectionNamesL segs := by
  intro segs
  induction segs with
  | nil => simp [replaceFirstSection, sectionNamesL]
  | cons seg rest ih =>
    cases seg with
    | text tl =>
      simp only [replaceFirstSection, sectionNamesL_cons_text, Option.map_eq_none']
      exact ih
    | sec x =>
      simp only [replaceFirstSection, sectionNamesL_cons_sec]
      by_cases hx : x.name = s.name
      · simp [hx]
      · simp only [if_neg hx, Option.map_eq_none', List.mem_cons]
        rw [ih]
        constructor
        · intro h hmem
          rcases hmem with hmem | hmem
          · exact hx hmem.symm
          · exact h hmem
        · intro h hmem
          exact h (Or.inr hmem)

theorem replaceFirst_some_spec {s : AgentSection} :
    ∀ {segs out : List DocSegment}, replaceFirstSection s segs = some out →
      ∃ pre x post, segs = pre ++ DocSegment.sec x :: post ∧ x.name = s.name ∧
        s.name ∉ sectionNamesL pre ∧ out = pre ++ DocSegment.sec s :: post := by
  intro segs
  induction segs with
  | nil => intro out h; simp [replaceFirstSection] at h
  | cons seg rest ih =>
    intro out h
    cases seg with
    | text tl =>
      simp only [replaceFirstSection, Option.map_eq_some'] at h
      obtain ⟨out', hout', rfl⟩ := h
      obtain ⟨pre, x, post, hseg, hname, hpre, hout⟩ := ih hout'
      exact ⟨DocSegment.text tl :: pre, x, post, by simp [hseg],
        hname, by simpa [sectionNamesL_cons_text] using hpre, by simp [hout]⟩
    | sec y =>
      simp only [replaceFirstSection] at h
      by_cases hy : y.name = s.name
      · rw [if_pos hy] at h
        simp only [Option.some.injEq] at h
        exact ⟨[], y, rest, by simp, hy, by simp [sectionNamesL], by simp [← h]⟩
      · rw [if_neg hy] at h
        simp only [Option.map_eq_some'] at h
        obtain ⟨out', hout', rfl⟩ := h
        obtain ⟨pre, x, post, hseg, hname, hpre, hout⟩ := ih hout'
        refine ⟨DocSegment.sec y :: pre, x, post, by simp [hseg], hname, ?_, by simp [hout]⟩
        simp only [sectionNamesL_cons_sec, List.mem_cons, not_or]
        exact ⟨fun hc => hy hc.symm, hpre⟩

theorem lastSectionIdx_none_iff :
    ∀ {segs : List DocSegment},
      lastSectionIdx segs = none ↔ ∀ seg ∈ segs, isSecB seg = false := by
  intro segs
  induction segs with
  | nil => simp [lastSectionIdx]
  | cons seg rest ih =>
    simp only [lastSectionIdx]
    cases hrest : lastSectionIdx rest with
    | some k => simp [← ih, hrest]
    | none =>
      cases seg with
      | sec x => simp [isSecB]
      | text tl =>
        have hrest' := ih.mp hrest
        constructor
        · intro _ seg hseg
          rcases List.mem_cons.mp hseg with rfl | hseg
          · rfl
          · exact hrest' seg hseg
        · intro _
          rfl

theorem lastSectionIdx_insert_spec (e : DocSegment) :
    ∀ {segs : List DocSegment} {k : Nat}, lastSectionIdx segs = some k →
      ∃ pre x post, segs = pre ++ DocSegment.sec x :: post ∧
        (∀ seg ∈ post, isSecB seg = false) ∧
        segs.insertIdx (k + 1) e = pre ++ DocSegment.sec x :: e :: post := by
  intro segs
  induction segs with
  | nil => intro k h; simp [lastSectionIdx] at h
  | cons seg rest ih =>
    intro k h
    simp only [lastSectionIdx] at h
    cases hrest : lastSectionIdx rest with
    | some k' =>
      rw [hrest] at h
      simp only [Option.some.injEq] at h
      obtain ⟨pre, x, post, hseg, hpost, hins⟩ := ih hrest
      refine ⟨seg :: pre, x, post, by simp [hseg], hpost, ?_⟩
      rw [← h]
      rw [List.insertIdx_succ_cons]
      simp [hins]
    | none =>
      rw [hrest] at h
      cases seg with
      | text tl => simp at h
      | sec x =>
        simp only [Option.some.injEq] at h
        subst h
        refine ⟨[], x, rest, by simp, lastSectionIdx_none_iff.mp hrest, ?_⟩
        rw [List.insertIdx_succ_cons]
        simp [List.insertIdx_zero]

/-- Full behavioural characterisation of `AgentsDoc.upsertSection`. -/
theorem upsertSection_spec (d : AgentsDoc) (s : AgentSection) :
    (s.name ∈ d.sectionNames →
      ∃ pre x post, d.segments = pre ++ DocSegment.sec x :: post ∧ x.name = s.name ∧
        s.name ∉ sectionNamesL pre ∧
        (d.upsertSection s).segments = pre ++ DocSegment.sec s :: post) ∧
    (s.name ∉ d.sectionNames →
      (∃ pre x post, d.segments = pre ++ DocSegment.sec x :: post ∧
          (∀ seg ∈ post, isSecB seg = false) ∧
          (d.upsertSection s).segments = pre ++ DocSegment.sec x :: DocSegment.sec s :: post) ∨
        ((∀ seg ∈ d.segments, isSecB seg = false) ∧
          (d.upsertSection s).segments = d.segments ++ [DocSegment.sec s])) := by
  constructor
  · intro hmem
    cases hrep : replaceFirstSection s d.segments with
    | none => exact absurd hmem (replaceFirst_eq_none_iff.mp hrep)
    | some out =>
      obtain ⟨pre, x, post, hseg, hname, hpre, hout⟩ := replaceFirst_some_spec hrep
      exact ⟨pre, x, post, hseg, hname, hpre, by simp [AgentsDoc.upsertSection, hrep, hout]⟩
  · intro hmem
    have hrep : replaceFirstSection s d.segments = none := replaceFirst_eq_none_iff.mpr hmem
    cases hlast : lastSectionIdx d.segments with
    | some k =>
      obtain ⟨pre, x, post, hseg, hpost, hins⟩ :=
        lastSectionIdx_insert_spec (DocSegment.sec s) hlast
      exact Or.inl ⟨pre, x, post, hseg, hpost,
        by simp [AgentsDoc.upsertSection, hrep, hlast, hins]⟩
    | none =>
      exact Or.inr ⟨lastSectionIdx_none_iff.mp hlast,
        by simp [AgentsDoc.upsertSection, hrep, hlast]⟩

theorem sectionNamesL_all_text {segs : List DocSegment}
    (h : ∀ seg ∈ segs, isSecB seg = false) : sectionNamesL segs = [] := by
  induction segs with
  | nil => rfl
  | cons seg rest ih =>
    cases seg with
    | text tl => exact (sectionNamesL_cons_text tl rest).trans (ih fun x hx => h x (by simp [hx]))
    | sec x => exact absurd (h (DocSegment.sec x) (by simp)) (by simp [isSecB])

theorem sectionNamesL_nil : sectionNamesL [] = [] := rfl

theorem nodup_snoc {α : Type _} {l : List α} {b : α}
    (h : l.Nodup) (hb : b ∉ l) : (l ++ [b]).Nodup := by
  refine h.append (List.nodup_singleton b) ?_
  intro a ha hb'
  rw [List.mem_singleton] at hb'
  subst hb'
  exact hb ha

theorem upsertSection_nodup {d : AgentsDoc} {s : AgentSection}
    (h : d.sectionNames.Nodup) : (d.upsertSection s).sectionNames.Nodup := by
  by_cases hmem : s.name ∈ d.sectionNames
  · obtain ⟨pre, x, post, hseg, hname, _, hout⟩ := (upsertSection_spec d s).1 hmem
    have : (d.upsertSection s).sectionNames = d.sectionNames := by
      simp only [AgentsDoc.sectionNames, hseg, hout, sectionNamesL_append,
        sectionNamesL_cons_sec, hname]
    rw [this]
    exact h
  · rcases (upsertSection_spec d s).2 hmem with
      ⟨pre, x, post, hseg, hpost, hout⟩ | ⟨hall, hout⟩
    · have hpost' : sectionNamesL post = [] := sectionNamesL_all_text hpost
      have hnames : d.sectionNames = sectionNamesL pre ++ [x.name] := by
        simp [AgentsDoc.sectionNames, hseg, sectionNamesL_append,
          sectionNamesL_cons_sec, hpost']
      have hnames' : (d.upsertSection s).sectionNames
          = (sectionNamesL pre ++ [x.name]) ++ [s.name] := by
        simp [AgentsDoc.sectionNames, hout, sectionNamesL_append,
          sectionNamesL_cons_sec, hpost']
      rw [hnames']
      rw [hnames] at h hmem
      exact nodup_snoc h hmem
    · have : (d.upsertSection s).sectionNames = d.sectionNames ++ [s.name] := by
        simp [AgentsDoc.sectionNames, hout, sectionNamesL_append,
          sectionNamesL_cons_sec, sectionNamesL_nil]
      rw [this]
      exact nodup_snoc h hmem

theorem removeSection_nodup {d : AgentsDoc} {name : Chars}
    (h : d.sectionNames.Nodup) : (d.removeSection name).sectionNames.Nodup := by
  have hsub : (d.removeSection name).sectionNames.Sublist d.sectionNames := by
    simp only [AgentsDoc.sectionNames, AgentsDoc.removeSection, sectionNamesL]
    exact List.Sublist.filterMap _ (List.filter_sublist _)
  exact h.sublist hsub

/-- An editing operation on a document: `upsert_section` or
`remove_section`. -/
inductive DocOp where
  | upsert : AgentSection → DocOp
  | remove : Chars → DocOp
deriving DecidableEq, Repr

/-- Apply one editing operation. -/
def applyOp (d : AgentsDoc) : DocOp → AgentsDoc
  | DocOp.upsert s => d.upsertSection s
  | DocOp.remove name => d.removeSection name

/-- Apply a sequence of editing operations in order. -/
def applyOps (d : AgentsDoc) (ops : List DocOp) : AgentsDoc :=
  ops.foldl applyOp d

/-- A text containing two sections that share the name `a`; `parse` accepts
it. -/
def c5DupText : Chars :=
  ("<!-- prime-agent(Start a) -->\n## a\nX\n<!-- prime-agent(End a) -->\n" ++
    "<!-- prime-agent(Start a) -->\n## a\nY\n<!-- prime-agent(End a) -->").toList

/-- The document `c5DupText` parses to: two sections both named `a`. -/
def c5DupDoc : AgentsDoc :=
  ⟨[DocSegment.sec ⟨"a".toList, ["X".toList]⟩,
    DocSegment.sec ⟨"a".toList, ["Y".toList]⟩]⟩

/-- C5, counterexample: `parse` accepts a document with two sections named
`a`, so after the empty sequence of calls `section_names()` already
contains a duplicate — parse does not enforce name uniqueness. -/
theorem c5_nodup_counterexample :
    AgentsDoc.parse c5DupText = some c5DupDoc ∧
      applyOps c5DupDoc [] = c5DupDoc ∧
      ¬ (AgentsDoc.sectionNames c5DupDoc).Nodup := by
  refine ⟨by decide, rfl, by decide⟩

/-- C5 (corrected): for every document obtained by `parse` whose section
names are pairwise distinct, any sequence of `upsert_section` and
`remove_section` calls preserves distinctness: `section_names()` contains
no duplicate names. -/
theorem c5_nodup_amended {text : Chars} {d : AgentsDoc}
    (hparse : AgentsDoc.parse text = some d)
    (hnodup : d.sectionNames.Nodup) :
    ∀ ops : List DocOp, ((applyOps d ops).sectionNames).Nodup := by
  intro ops
  clear hparse
  induction ops generalizing d with
  | nil => exact hnodup
  | cons op rest ih =>
    simp only [applyOps, List.foldl_cons]
    refine ih ?_
    cases op with
    | upsert s => exact upsertSection_nodup hnodup
    | remove name => exact removeSection_nodup hnodup

/-- Sample text for the C5 witness. -/
def c5GoodText : Chars :=
  "<!-- prime-agent(Start a) -->\n## a\nX\n<!-- prime-agent(End a) -->".toList

/-- The document `c5GoodText` parses to. -/
def c5GoodDoc : AgentsDoc :=
  ⟨[DocSegment.sec ⟨"a".toList, ["X".toList]⟩]⟩

/-- C5, witness: distinctness is preserved at a concrete document under a
concrete upsert-then-remove sequence. -/
theorem c5_nodup_witness :
    ((applyOps c5GoodDoc
      [DocOp.upsert ⟨"b".toList, ["Y".toList]⟩,
       DocOp.remove "a".toList]).sectionNames).Nodup :=
  @c5_nodup_amended c5GoodText c5GoodDoc (by decide) (by decide) _

/-- C6: `upsert_section` with a name already in the document replaces the
first section of that name in place — same segment position, every other
segment unchanged; with a new name it inserts the section immediately after
the last existing section segment, or at the end of the segment list when
the document contains no section segment, never inside a text span. -/
theorem c6_upsert_behaviour (d : AgentsDoc) (s : AgentSection) :
    (s.name ∈ d.sectionNames →
      ∃ pre x post, d.segments = pre ++ DocSegment.sec x :: post ∧ x.name = s.name ∧
        s.name ∉ sectionNamesL pre ∧
        (d.upsertSection s).segments = pre ++ DocSegment.sec s :: post) ∧
    (s.name ∉ d.sectionNames →
      (∃ pre x post, d.segments = pre ++ DocSegment.sec x :: post ∧
          (∀ seg ∈ post, isSecB seg = false) ∧
          (d.upsertSection s).segments = pre ++ DocSegment.sec x :: DocSegment.sec s :: post) ∨
        ((∀ seg ∈ d.segments, isSecB seg = false) ∧
          (d.upsertSection s).segments = d.segments ++ [DocSegment.sec s])) :=
  upsertSection_spec d s

/-- Sample document for the C6 witness. -/
def c6Doc : AgentsDoc :=
  ⟨[DocSegment.text ["t".toList],
    DocSegment.sec ⟨"a".toList, ["x".toList]⟩,
    DocSegment.text ["u".toList]]⟩

/-- C6, witness: both branches instantiated at concrete inputs. -/
theorem c6_upsert_witness :
    (∃ pre x post,
      c6Doc.segments = pre ++ DocSegment.sec x :: post ∧
        x.name = (⟨"a".toList, ["y".toList]⟩ : AgentSection).name ∧
        (⟨"a".toList, ["y".toList]⟩ : AgentSection).name ∉ sectionNamesL pre ∧
        (c6Doc.upsertSection ⟨"a".toList, ["y".toList]⟩).segments =
          pre ++ DocSegment.sec ⟨"a".toList, ["y".toList]⟩ :: post) ∧
    ((∃ pre x post,
        c6Doc.segments = pre ++ DocSegment.sec x :: post ∧
          (∀ seg ∈ post, isSecB seg = false) ∧
          (c6Doc.upsertSection ⟨"b".toList, []⟩).segments =
            pre ++ DocSegment.sec x :: DocSegment.sec ⟨"b".toList, []⟩ :: post) ∨
      ((∀ seg ∈ c6Doc.segments, isSecB seg = false) ∧
        (c6Doc.upsertSection ⟨"b".toList, []⟩).segments =
          c6Doc.segments ++ [DocSegment.sec ⟨"b".toList, []⟩])) :=
  ⟨(c6_upsert_behaviour c6Doc ⟨"a".toList, ["y".toList]⟩).1 (by decide),
   (c6_upsert_behaviour c6Doc ⟨"b".toList, []⟩).2 (by decide)⟩

/-! ### The sync core (`sync.rs`) -/

/-- Left-to-right, non-overlapping replacement of CRLF by LF
(`content.replace("\r\n", "\n")`). -/
def replaceCRLF : Chars → Chars
  | '\r' :: '\n' :: rest => '\n' :: replaceCRLF rest
  | c :: rest => c :: replaceCRLF rest
  | [] => []

/-- Strip all trailing newline characters (`trim_end_matches('\n')`). -/
def trimEndNewlines (l : Chars) : Chars :=
  (l.reverse.dropWhile fun c => c == '\n').reverse

/-- `normalize_content` from `sync.rs`. -/
def normalizeContent (content : Chars) : Chars :=
  trimEndNewlines (replaceCRLF content)

/-- A character allowed in a skill name (ASCII alphanumeric, `-`, `_`). -/
def isValidNameChar (c : Char) : Bool :=
  c.isAlphanum || c == '-' || c == '_'

/-- `SkillsStore::validate_name`: `true` iff the name is accepted. -/
def validateName (name : Chars) : Bool :=
  !name.isEmpty && name.all isValidNameChar

/-- The skills store, modelled as an association list from skill name to
content (`SKILL.md` file contents). -/
abbrev Store := List (Chars × Chars)

/-- `SkillsStore::load_skill` / `skill_exists`: first binding of the name. -/
def storeLookup : Store → Chars → Option Chars
  | [], _ => none
  | (k, v) :: rest, name => if k = name then some v else storeLookup rest name

/-- `SkillsStore::save_skill`: replace the first binding or append one. -/
def storeSave (st : Store) (name content : Chars) : Store :=
  match st with
  | [] => [(name, content)]
  | (k, v) :: rest =>
    if k = name then (name, content) :: rest else (k, v) :: storeSave rest name content

/-- `SkillsStore::list_skill_names` (before sorting): the stored names. -/
def storeNames (st : Store) : List Chars :=
  st.map Prod.fst

/-- Byte-wise lexicographic strict order on names (Rust `String` order). -/
def lexLt : Chars → Chars → Bool
  | [], [] => false
  | [], _ :: _ => true
  | _ :: _, [] => false
  | a :: as, b :: bs => if a < b then true else if b < a then false else lexLt as bs

/-- The `BTreeSet` union of section names and skill names: deduplicated and
iterated in ascending order. -/
def allNamesOf (docNames skillNames : List Chars) : List Chars :=
  ((docNames ++ skillNames).dedup).insertionSort fun a b => lexLt a b = true

/-! #### Conflict resolution (`resolve_conflicts_interactive`)

The line diff itself is produced by the external `similar` crate.  The
types and the hunk grouping below are modelled from the spec: a line-level
diff is an ordered sequence of change operations, each tagged
Equal / Delete (left-only) / Insert (right-only) carrying the exact text of
one line (terminator included); a hunk is a maximal run of non-equal
operations plus up to `n` lines of surrounding equal context on each side,
and equal runs longer than `2 × n` split the boundary between hunks. -/

/-- Modelled from the spec: the tag of one diff change operation. -/
inductive DiffTag where
  | equal : DiffTag
  | del : DiffTag
  | ins : DiffTag
deriving DecidableEq, Repr

/-- Modelled from the spec: one change operation of the line diff, carrying
the exact text of one line of the left or right input. -/
structure Change where
  tag : DiffTag
  value : Chars
deriving DecidableEq, Repr

/-- The concatenated values of the Equal and Delete changes: the left
input, when the change list is a valid edit script. -/
def leftValues (ops : List Change) : Chars :=
  (ops.filterMap fun c =>
    match c.tag with
    | DiffTag.ins => none
    | _ => some c.value).flatten

/-- The concatenated values of the Equal and Insert changes: the right
input, when the change list is a valid edit script. -/
def rightValues (ops : List Change) : Chars :=
  (ops.filterMap fun c =>
    match c.tag with
    | DiffTag.del => none
    | _ => some c.value).flatten

/-- Modelled from the spec: a change list is a valid edit script for a pair
of inputs when its Equal/Delete values concatenate to the left input and
its Equal/Insert values concatenate to the right input. -/
def IsScript (left right : Chars) (ops : List Change) : Prop :=
  leftValues ops = left ∧ rightValues ops = right

/-- Whether a change is tagged Equal. -/
def isEqChange (c : Change) : Bool :=
  c.tag = DiffTag.equal

/-- Split a change list into maximal runs of changes sharing Equal-ness. -/
def runsOf : List Change → List (List Change)
  | [] => []
  | c :: rest =>
    match runsOf rest with
    | [] => [[c]]
    | r :: rs =>
      match r with
      | [] => [c] :: rs
      | d :: _ => if isEqChange c = isEqChange d then (c :: r) :: rs else [c] :: r :: rs

/-- Whether a run consists of Equal changes (empty runs count as equal). -/
def isEqRun : List Change → Bool
  | [] => true
  | c :: _ => isEqChange c

/-- The last `n` elements of a run. -/
def lastN (n : Nat) (r : List Change) : List Change :=
  r.drop (r.length - n)

/-- Modelled from the spec: assemble the alternating runs into hunks.
`openHunk` is the hunk being built (if any) and `pending` the trailing
context retained from the previous equal run. -/
def buildGroups (n : Nat) (openHunk : Option (List Change)) (pending : List Change) :
    List (List Change) → List (List Change)
  | [] =>
    match openHunk with
    | none => []
    | some h => [h]
  | r :: rs =>
    if isEqRun r then
      match openHunk with
      | none => buildGroups n none (lastN n r) rs
      | some h =>
        if rs = [] then [h ++ r.take n]
        else if r.length ≤ 2 * n then buildGroups n (some (h ++ r)) [] rs
        else (h ++ r.take n) :: buildGroups n none (lastN n r) rs
    else
      match openHunk with
      | none => buildGroups n (some (pending ++ r)) [] rs
      | some h => buildGroups n (some (h ++ r)) [] rs

/-- Modelled from the spec: `TextDiff::grouped_ops(n)` — the hunks of a
change list, each a maximal run of non-equal changes with up to `n` equal
context lines on each side. -/
def groupedOps (n : Nat) (ops : List Change) : List (List Change) :=
  buildGroups n none [] (runsOf ops)

/-- `Choice` from `sync.rs`: keep the skill's or the agents file's version
of a hunk. -/
inductive Choice where
  | skill : Choice
  | agents : Choice
deriving DecidableEq, Repr

/-- The per-change copy rule of `resolve_conflicts_interactive`: Equal
values are always copied, Delete values only under `Choice::Skill`, Insert
values only under `Choice::Agents`. -/
def resolveGroup (choice : Choice) (g : List Change) : Chars :=
  (g.filterMap fun c =>
    match c.tag with
    | DiffTag.equal => some c.value
    | DiffTag.del => if choice = Choice.skill then some c.value else none
    | DiffTag.ins => if choice = Choice.agents then some c.value else none).flatten

/-- Resolve the hunks in order, asking the decision function once per
hunk. -/
def resolveGroups (choose : Nat → Choice) : Nat → List (List Change) → Chars
  | _, [] => []
  | i, g :: gs => resolveGroup (choose i) g ++ resolveGroups choose (i + 1) gs

/-- `resolve_conflicts_interactive`, with the line diff supplied as a
function parameter (the `similar` crate) and the interactive prompt as a
decision function. -/
def resolveConflicts (diffFn : Chars → Chars → List Change) (choose : Nat → Choice)
    (left right : Chars) : Chars :=
  let ops := diffFn left right
  if ops = [] then left
  else resolveGroups choose 0 (groupedOps 3 ops)

/-! #### `run_sync` -/

/-- The mutable state of the `run_sync` loop, together with logs of the
observable effects: every `save_skill` call, every `upsert_section` call,
and every name for which interactive conflict resolution ran. -/
structure SyncState where
  store : Store
  doc : AgentsDoc
  skillWrites : List (Chars × Chars)
  upserts : List Chars
  conflicts : List Chars
  updated : Bool
deriving DecidableEq, Repr

/-- One iteration of the `run_sync` loop for one name; `none` models a
`ValidationError`. -/
def syncStep (diffFn : Chars → Chars → List Change) (choose : Chars → Nat → Choice)
    (st : SyncState) (name : Chars) : Option SyncState :=
  if validateName name then
    match storeLookup st.store name, st.doc.getSection name with
    | none, some s =>
      some { st with
        store := storeSave st.store name s.contentString,
        skillWrites := st.skillWrites ++ [(name, s.contentString)] }
    | some c, none =>
      some { st with
        doc := st.doc.upsertSection (AgentSection.fromContent name c),
        upserts := st.upserts ++ [name],
        updated := true }
    | some c, some s =>
      if normalizeContent c ≠ normalizeContent s.contentString then
        let resolved := resolveConflicts diffFn (choose name) c s.contentString
        some { st with
          store := storeSave st.store name resolved,
          doc := st.doc.upsertSection (AgentSection.fromContent name resolved),
          skillWrites := st.skillWrites ++ [(name, resolved)],
          upserts := st.upserts ++ [name],
          conflicts := st.conflicts ++ [name],
          updated := true }
      else some st
    | none, none => some st
  else none

/-- The outcome of a successful `run_sync`: final store and document, the
rendered text, the effect logs, and whether (and with what) the agents file
was written. -/
structure SyncResult where
  store : Store
  doc : AgentsDoc
  rendered : Chars
  skillWrites : List (Chars × Chars)
  upserts : List Chars
  conflicts : List Chars
  updated : Bool
  docWritten : Bool
  fileAfter : Option Chars
deriving DecidableEq, Repr

/-- `read_agents_doc` from `sync.rs`: an absent file is an empty document,
a present one is parsed (`none` models a read or parse failure). -/
def readAgentsDoc : Option Chars → Option AgentsDoc
  | none => some AgentsDoc.empty
  | some t => AgentsDoc.parse t

/-- `run_sync` from `sync.rs`: read and parse the agents file (absent file
means empty document), process the union of names in ascending order, then
write the rendered document back unless nothing changed.  `none` models any
propagated error. -/
def runSync (diffFn : Chars → Chars → List Change) (choose : Chars → Nat → Choice)
    (store : Store) (file : Option Chars) : Option SyncResult :=
  match readAgentsDoc file with
  | none => none
  | some doc0 =>
    let allNames := allNamesOf doc0.sectionNames (storeNames store)
    match allNames.foldlM (syncStep diffFn choose) ⟨store, doc0, [], [], [], false⟩ with
    | none => none
    | some st =>
      let rendered := st.doc.render
      let written := st.updated || decide (¬ file = some rendered)
      some ⟨st.store, st.doc, rendered, st.skillWrites, st.upserts, st.conflicts,
        st.updated, written, if written then some rendered else file⟩

instance (left right : Chars) (ops : List Change) : Decidable (IsScript left right ops) := by
  unfold IsScript
  infer_instance

/-! ### C2: conflict resolution loses lines outside hunk context -/

/-- The left (skill) content for the C2 failing input. -/
def c2Left : Chars := "l1\nl2\nl3\nl4\nl5\nX\n".toList

/-- The right (section) content for the C2 failing input. -/
def c2Right : Chars := "l1\nl2\nl3\nl4\nl5\nY\n".toList

/-- The minimal line edit script between `c2Left` and `c2Right`: five equal
lines, then one deletion and one insertion. -/
def c2Ops : List Change :=
  [⟨DiffTag.equal, "l1\n".toList⟩, ⟨DiffTag.equal, "l2\n".toList⟩,
   ⟨DiffTag.equal, "l3\n".toList⟩, ⟨DiffTag.equal, "l4\n".toList⟩,
   ⟨DiffTag.equal, "l5\n".toList⟩,
   ⟨DiffTag.del, "X\n".toList⟩, ⟨DiffTag.ins, "Y\n".toList⟩]

/-- C2, the code bug at a concrete input: `c2Ops` is a valid edit script of
the two contents and tags line `l1` Equal, yet for every per-hunk decision
function the resolved content is only the three context lines plus the
chosen change — the Equal lines `l1` and `l2`, lying more than three lines
from the only change, appear in no hunk of `grouped_ops(3)` and are dropped
from the resolved output instead of appearing exactly once. -/
theorem c2_resolution_drops_equal_lines :
    IsScript c2Left c2Right c2Ops ∧
      (Change.mk DiffTag.equal "l1\n".toList) ∈ c2Ops ∧
      (∀ choose : Nat → Choice,
        resolveConflicts (fun _ _ => c2Ops) choose c2Left c2Right =
          if choose 0 = Choice.skill then "l3\nl4\nl5\nX\n".toList
          else "l3\nl4\nl5\nY\n".toList) ∧
      "l1".toList ∈ splitPTN c2Left ∧ "l1".toList ∈ splitPTN c2Right ∧
      "l1".toList ∉ splitPTN "l3\nl4\nl5\nX\n".toList ∧
      "l1".toList ∉ splitPTN "l3\nl4\nl5\nY\n".toList := by
  refine ⟨by decide, by decide, ?_, by decide, by decide, by decide, by decide⟩
  intro choose
  cases hc : choose 0 with
  | skill =>
    simp only [resolveConflicts, resolveGroups, hc]
    decide
  | agents =>
    simp only [resolveConflicts, resolveGroups, hc]
    decide

/-! ### C9: a fragment with no section becomes a delimited section -/

/-- The store holding only the fragment `beta` with content `"X\n"`. -/
def c9Store : Store := [("beta".toList, "X\n".toList)]

/-- C9: with fragment `beta` = `"X\n"` and no section `beta` (no document
at all), sync inserts a section named `beta`, delimited by start and end
markers, whose content text is exactly `"X\n"` — the single line `X`
(`from_content` keeps the trailing-newline-implying empty final line). -/
theorem c9_fragment_creates_section :
    (runSync (fun _ _ => []) (fun _ _ => Choice.skill) c9Store none).map
        (fun r => r.doc.getSection "beta".toList) =
      some (some ⟨"beta".toList, ["X".toList, []]⟩) ∧
      AgentSection.contentString ⟨"beta".toList, ["X".toList, []]⟩ = "X\n".toList ∧
      (runSync (fun _ _ => []) (fun _ _ => Choice.skill) c9Store none).map
          SyncResult.rendered =
        some ("<!-- prime-agent(Start beta) -->\n## beta\nX\n\n<!-- prime-agent(End beta) -->").toList := by
  refine ⟨by decide, by decide, by decide⟩

/-! ### Store and document lookup lemmas -/

theorem storeLookup_save (st : Store) (name content m : Chars) :
    storeLookup (storeSave st name content) m =
      if m = name then some content else storeLookup st m := by
  induction st with
  | nil =>
    simp only [storeSave, storeLookup]
    by_cases hm : m = name
    · subst hm
      simp
    · have hnm : ¬ name = m := fun h => hm h.symm
      simp [hm, hnm]
  | cons p rest ih =>
    obtain ⟨k, v⟩ := p
    simp only [storeSave]
    by_cases hk : k = name
    · subst hk
      simp only [if_pos rfl, storeLookup]
      by_cases hm : m = k
      · subst hm
        simp
      · have hkm : ¬ k = m := fun h => hm h.symm
        simp [hm, hkm]
    · simp only [if_neg hk, storeLookup]
      by_cases hkm : k = m
      · subst hkm
        simp [hk]
      · simp [hkm, ih]

theorem storeLookup_isSome_iff {st : Store} {n : Chars} :
    (storeLookup st n).isSome = true ↔ n ∈ storeNames st := by
  induction st with
  | nil => simp [storeLookup, storeNames]
  | cons p rest ih =>
    obtain ⟨k, v⟩ := p
    by_cases hk : k = n
    · subst hk
      simp [storeLookup, storeNames]
    · simp only [storeLookup, if_neg hk, storeNames, List.map_cons, List.mem_cons]
      rw [ih]
      simp only [storeNames]
      constructor
      · intro h
        exact Or.inr h
      · rintro (h | h)
        · exact absurd h.symm hk
        · exact h

theorem storeNames_save_mem {st : Store} {name content m : Chars} :
    m ∈ storeNames (storeSave st name content) ↔ m = name ∨ m ∈ storeNames st := by
  induction st with
  | nil => simp [storeSave, storeNames]
  | cons p rest ih =>
    obtain ⟨k, v⟩ := p
    by_cases hk : k = name
    · subst hk
      have hs : storeSave ((k, v) :: rest) k content = (k, content) :: rest := by
        simp [storeSave]
      rw [hs]
      simp only [storeNames, List.map_cons, List.mem_cons]
      tauto
    · simp only [storeSave, if_neg hk, storeNames, List.map_cons, List.mem_cons] at ih ⊢
      rw [ih]
      tauto

theorem getSectionL_eq_none_iff {segs : List DocSegment} {n : Chars} :
    getSectionL segs n = none ↔ n ∉ sectionNamesL segs := by
  induction segs with
  | nil => simp [getSectionL, sectionNamesL]
  | cons seg rest ih =>
    cases seg with
    | text tl => simp only [getSectionL, sectionNamesL_cons_text]; exact ih
    | sec s =>
      by_cases hs : s.name = n
      · simp [getSectionL, hs, sectionNamesL_cons_sec]
      · simp only [getSectionL, if_neg hs, sectionNamesL_cons_sec, List.mem_cons]
        rw [ih]
        constructor
        · intro h
          rintro (rfl | hmem)
          · exact hs rfl
          · exact h hmem
        · intro h hmem
          exact h (Or.inr hmem)

theorem getSectionL_isSome_iff {segs : List DocSegment} {n : Chars} :
    (getSectionL segs n).isSome = true ↔ n ∈ sectionNamesL segs := by
  cases h : getSectionL segs n with
  | none => simp [getSectionL_eq_none_iff.mp h]
  | some s =>
    constructor
    · intro _
      by_contra hc
      rw [← getSectionL_eq_none_iff, h] at hc
      exact Option.noConfusion hc
    · intro _
      rfl

theorem getSectionL_append (a b : List DocSegment) (n : Chars) :
    getSectionL (a ++ b) n =
      match getSectionL a n with
      | some s => some s
      | none => getSectionL b n := by
  induction a with
  | nil => simp [getSectionL]
  | cons seg rest ih =>
    cases seg with
    | text tl => simpa [getSectionL] using ih
    | sec s =>
      by_cases hs : s.name = n
      · simp [getSectionL, hs]
      · simpa [getSectionL, hs] using ih

theorem getSection_mem_sectionNames {d : AgentsDoc} {n : Chars} :
    (d.getSection n).isSome = true ↔ n ∈ d.sectionNames :=
  getSectionL_isSome_iff

/-- After upsert, looking up the upserted name yields the new section. -/
theorem upsert_getSection_self (d : AgentsDoc) (s : AgentSection) :
    (d.upsertSection s).getSection s.name = some s := by
  by_cases hmem : s.name ∈ d.sectionNames
  · obtain ⟨pre, x, post, hseg, hname, hpre, hout⟩ := (upsertSection_spec d s).1 hmem
    simp only [AgentsDoc.getSection, hout, getSectionL_append]
    rw [getSectionL_eq_none_iff.mpr hpre]
    simp [getSectionL]
  · rcases (upsertSection_spec d s).2 hmem with
      ⟨pre, x, post, hseg, hpost, hout⟩ | ⟨hall, hout⟩
    · have hpre : s.name ∉ sectionNamesL pre := by
        intro hc
        exact hmem (by simp [AgentsDoc.sectionNames, hseg, sectionNamesL_append, hc])
      have hx : ¬ x.name = s.name := by
        intro hc
        exact hmem (by simp [AgentsDoc.sectionNames, hseg, sectionNamesL_append,
          sectionNamesL_cons_sec, hc])
      simp only [AgentsDoc.getSection, hout, getSectionL_append]
      rw [getSectionL_eq_none_iff.mpr hpre]
      simp [getSectionL, hx]
    · have hpre : s.name ∉ sectionNamesL d.segments := hmem
      simp only [AgentsDoc.getSection, hout, getSectionL_append]
      rw [getSectionL_eq_none_iff.mpr hpre]
      simp [getSectionL]

/-- Upsert does not change the lookup of any other name. -/
theorem upsert_getSection_other (d : AgentsDoc) (s : AgentSection) {m : Chars}
    (hm : m ≠ s.name) : (d.upsertSection s).getSection m = d.getSection m := by
  by_cases hmem : s.name ∈ d.sectionNames
  · obtain ⟨pre, x, post, hseg, hname, hpre, hout⟩ := (upsertSection_spec d s).1 hmem
    simp only [AgentsDoc.getSection, hout, hseg, getSectionL_append]
    cases hp : getSectionL pre m with
    | some y => rfl
    | none =>
      have hxm : ¬ x.name = m := by rw [hname]; exact fun h => hm h.symm
      have hsm : ¬ s.name = m := fun h => hm h.symm
      simp [getSectionL, hxm, hsm]
  · rcases (upsertSection_spec d s).2 hmem with
      ⟨pre, x, post, hseg, hpost, hout⟩ | ⟨hall, hout⟩
    · simp only [AgentsDoc.getSection, hout, hseg, getSectionL_append]
      cases hp : getSectionL pre m with
      | some y => rfl
      | none =>
        have hsm : ¬ s.name = m := fun h => hm h.symm
        by_cases hxm : x.name = m
        · simp [getSectionL, hxm]
        · simp [getSectionL, hxm, hsm]
    · simp only [AgentsDoc.getSection, hout, getSectionL_append]
      cases hp : getSectionL d.segments m with
      | some y => rfl
      | none =>
        have hsm : ¬ s.name = m := fun h => hm h.symm
        simp [getSectionL, hsm]

/-- Upsert adds no name other than the upserted one. -/
theorem upsert_names_subset {d : AgentsDoc} {s : AgentSection} {n : Chars}
    (h : n ∈ (d.upsertSection s).sectionNames) :
    n = s.name ∨ n ∈ d.sectionNames := by
  by_cases hmem : s.name ∈ d.sectionNames
  · obtain ⟨pre, x, post, hseg, hname, hpre, hout⟩ := (upsertSection_spec d s).1 hmem
    simp only [AgentsDoc.sectionNames, hout, sectionNamesL_append,
      sectionNamesL_cons_sec, List.mem_append, List.mem_cons] at h
    rcases h with h | h | h
    · exact Or.inr (by simp [AgentsDoc.sectionNames, hseg, sectionNamesL_append, h])
    · exact Or.inl h
    · exact Or.inr (by simp [AgentsDoc.sectionNames, hseg, sectionNamesL_append,
        sectionNamesL_cons_sec, h])
  · rcases (upsertSection_spec d s).2 hmem with
      ⟨pre, x, post, hseg, hpost, hout⟩ | ⟨hall, hout⟩
    · simp only [AgentsDoc.sectionNames, hout, sectionNamesL_append,
        sectionNamesL_cons_sec, List.mem_append, List.mem_cons] at h
      rcases h with h | h | h | h
      · exact Or.inr (by simp [AgentsDoc.sectionNames, hseg, sectionNamesL_append, h])
      · exact Or.inr (by simp [AgentsDoc.sectionNames, hseg, sectionNamesL_append,
          sectionNamesL_cons_sec, h])
      · exact Or.inl h
      · exact Or.inr (by simp [AgentsDoc.sectionNames, hseg, sectionNamesL_append,
          sectionNamesL_cons_sec, h])
    · simp only [AgentsDoc.sectionNames, hout, sectionNamesL_append,
        sectionNamesL_cons_sec, sectionNamesL_nil, List.mem_append, List.mem_cons] at h
      rcases h with h | h | h
      · exact Or.inr h
      · exact Or.inl h
      · exact absurd h (List.not_mem_nil n)

/-- `content_string` is a left inverse of `from_content`. -/
theorem contentString_fromContent (name c : Chars) :
    (AgentSection.fromContent name c).contentString = c := by
  simp only [AgentSection.fromContent, AgentSection.contentString]
  exact joinNL_splitPTN c

/-- Membership in the sorted deduplicated union of names. -/
theorem mem_allNamesOf {a b : List Chars} {n : Chars} :
    n ∈ allNamesOf a b ↔ n ∈ a ∨ n ∈ b := by
  unfold allNamesOf
  rw [List.mem_insertionSort, List.mem_dedup, List.mem_append]

/-- The processed name list contains no duplicates. -/
theorem nodup_allNamesOf (a b : List Chars) : (allNamesOf a b).Nodup := by
  unfold allNamesOf
  exact (List.perm_insertionSort _ _).nodup_iff.mpr (List.nodup_dedup _)

/-! ### Per-name step lemmas for `run_sync` -/

theorem syncStep_spec {df : Chars → Chars → List Change} {ch : Chars → Nat → Choice}
    {st : SyncState} {n : Chars} {st' : SyncState}
    (h : syncStep df ch st n = some st') :
    validateName n = true ∧
      ((∃ s, storeLookup st.store n = none ∧ st.doc.getSection n = some s ∧
          st' = { st with
            store := storeSave st.store n s.contentString,
            skillWrites := st.skillWrites ++ [(n, s.contentString)] }) ∨
        (∃ c, storeLookup st.store n = some c ∧ st.doc.getSection n = none ∧
          st' = { st with
            doc := st.doc.upsertSection (AgentSection.fromContent n c),
            upserts := st.upserts ++ [n],
            updated := true }) ∨
        (∃ c s, storeLookup st.store n = some c ∧ st.doc.getSection n = some s ∧
          normalizeContent c ≠ normalizeContent s.contentString ∧
          st' = { st with
            store := storeSave st.store n
              (resolveConflicts df (ch n) c s.contentString),
            doc := st.doc.upsertSection
              (AgentSection.fromContent n (resolveConflicts df (ch n) c s.contentString)),
            skillWrites := st.skillWrites ++
              [(n, resolveConflicts df (ch n) c s.contentString)],
            upserts := st.upserts ++ [n],
            conflicts := st.conflicts ++ [n],
            updated := true }) ∨
        (st' = st ∧
          ((storeLookup st.store n = none ∧ st.doc.getSection n = none) ∨
            ∃ c s, storeLookup st.store n = some c ∧ st.doc.getSection n = some s ∧
              normalizeContent c = normalizeContent s.contentString))) := by
  unfold syncStep at h
  by_cases hv : validateName n = true
  · refine ⟨hv, ?_⟩
    rw [if_pos hv] at h
    cases hlook : storeLookup st.store n with
    | none =>
      cases hsec : st.doc.getSection n with
      | none =>
        rw [hlook, hsec] at h
        simp only [Option.some.injEq] at h
        exact Or.inr (Or.inr (Or.inr ⟨h.symm, Or.inl ⟨rfl, rfl⟩⟩))
      | some s =>
        rw [hlook, hsec] at h
        simp only [Option.some.injEq] at h
        exact Or.inl ⟨s, rfl, rfl, h.symm⟩
    | some c =>
      cases hsec : st.doc.getSection n with
      | none =>
        rw [hlook, hsec] at h
        simp only [Option.some.injEq] at h
        exact Or.inr (Or.inl ⟨c, rfl, rfl, h.symm⟩)
      | some s =>
        simp only [hlook, hsec] at h
        by_cases hne : normalizeContent c ≠ normalizeContent s.contentString
        · rw [if_pos hne] at h
          simp only [Option.some.injEq] at h
          exact Or.inr (Or.inr (Or.inl ⟨c, s, rfl, rfl, hne, h.symm⟩))
        · rw [if_neg hne] at h
          simp only [Option.some.injEq] at h
          push_neg at hne
          exact Or.inr (Or.inr (Or.inr ⟨h.symm, Or.inr ⟨c, s, rfl, rfl, hne⟩⟩))
  · rw [if_neg hv] at h
    exact absurd h (by simp)

theorem syncStep_preserves_other {df : Chars → Chars → List Change}
    {ch : Chars → Nat → Choice} {st : SyncState} {n : Chars} {st' : SyncState}
    (h : syncStep df ch st n = some st') {m : Chars} (hm : m ≠ n) :
    storeLookup st'.store m = storeLookup st.store m ∧
      st'.doc.getSection m = st.doc.getSection m := by
  rcases (syncStep_spec h).2 with
    ⟨s, _, _, rfl⟩ | ⟨c, _, _, rfl⟩ | ⟨c, s, _, _, _, rfl⟩ | ⟨rfl, _⟩
  · exact ⟨by rw [storeLookup_save, if_neg hm], rfl⟩
  · exact ⟨rfl, upsert_getSection_other _ _ hm⟩
  · exact ⟨by rw [storeLookup_save, if_neg hm], upsert_getSection_other _ _ hm⟩
  · exact ⟨rfl, rfl⟩

theorem syncStep_logs {df : Chars → Chars → List Change}
    {ch : Chars → Nat → Choice} {st : SyncState} {n : Chars} {st' : SyncState}
    (h : syncStep df ch st n = some st') :
    ∃ w u cf, st'.skillWrites = st.skillWrites ++ w ∧
      st'.upserts = st.upserts ++ u ∧
      st'.conflicts = st.conflicts ++ cf ∧
      (∀ p ∈ w, p.1 = n) ∧ (∀ x ∈ u, x = n) ∧ (∀ x ∈ cf, x = n) ∧
      (st'.updated = (st.updated || !u.isEmpty)) := by
  rcases (syncStep_spec h).2 with
    ⟨s, _, _, rfl⟩ | ⟨c, _, _, rfl⟩ | ⟨c, s, _, _, _, rfl⟩ | ⟨rfl, _⟩
  · exact ⟨[(n, s.contentString)], [], [], rfl, by simp, by simp, by simp, by simp,
      by simp, by simp⟩
  · exact ⟨[], [n], [], by simp, rfl, by simp, by simp, by simp, by simp, by simp⟩
  · exact ⟨[(n, resolveConflicts df (ch n) c s.contentString)], [n], [n], rfl, rfl, rfl,
      by simp, by simp, by simp, by simp⟩
  · exact ⟨[], [], [], by simp, by simp, by simp, by simp, by simp, by simp, by simp⟩

theorem syncStep_matching_noop {df : Chars → Chars → List Change}
    {ch : Chars → Nat → Choice} {st : SyncState} {n : Chars} {c : Chars}
    {s : AgentSection}
    (hv : validateName n = true) (hc : storeLookup st.store n = some c)
    (hs : st.doc.getSection n = some s)
    (heq : normalizeContent c = normalizeContent s.contentString) :
    syncStep df ch st n = some st := by
  unfold syncStep
  rw [if_pos hv]
  simp only [hc, hs]
  rw [if_neg (by simpa using heq)]

theorem syncStep_post {df : Chars → Chars → List Change}
    {ch : Chars → Nat → Choice} {st : SyncState} {n : Chars} {st' : SyncState}
    (h : syncStep df ch st n = some st')
    (hside : (storeLookup st.store n).isSome = true ∨ (st.doc.getSection n).isSome = true) :
    ∃ c s, storeLookup st'.store n = some c ∧ st'.doc.getSection n = some s ∧
      normalizeContent c = normalizeContent s.contentString := by
  rcases (syncStep_spec h).2 with
    ⟨s, hl, hg, rfl⟩ | ⟨c, hl, hg, rfl⟩ | ⟨c, s, hl, hg, hne, rfl⟩ | ⟨rfl, hcase⟩
  · refine ⟨s.contentString, s, ?_, hg, rfl⟩
    rw [storeLookup_save, if_pos rfl]
  · refine ⟨c, AgentSection.fromContent n c, hl, ?_, ?_⟩
    · exact upsert_getSection_self st.doc (AgentSection.fromContent n c)
    · rw [contentString_fromContent]
  · refine ⟨resolveConflicts df (ch n) c s.contentString,
      AgentSection.fromContent n (resolveConflicts df (ch n) c s.contentString),
      ?_, ?_, ?_⟩
    · rw [storeLookup_save, if_pos rfl]
    · exact upsert_getSection_self st.doc _
    · rw [contentString_fromContent]
  · rcases hcase with ⟨hl, hg⟩ | ⟨c, s, hl, hg, heq⟩
    · rw [hl, hg] at hside
      simp at hside
    · exact ⟨c, s, hl, hg, heq⟩

/-! ### Whole-loop lemmas for `run_sync` -/

theorem optionBind_some {α β : Type _} {x : Option α} {f : α → Option β} {b : β}
    (h : (x >>= f) = some b) : ∃ a, x = some a ∧ f a = some b := by
  cases x with
  | none => simp at h
  | some a => exact ⟨a, rfl, by simpa using h⟩

theorem foldSync_preserves_other {df : Chars → Chars → List Change}
    {ch : Chars → Nat → Choice} :
    ∀ {names : List Chars} {st st' : SyncState},
      names.foldlM (syncStep df ch) st = some st' → ∀ {m : Chars}, m ∉ names →
        storeLookup st'.store m = storeLookup st.store m ∧
          st'.doc.getSection m = st.doc.getSection m := by
  intro names
  induction names with
  | nil =>
    intro st st' h m _
    simp only [List.foldlM_nil] at h
    cases h
    exact ⟨rfl, rfl⟩
  | cons n rest ih =>
    intro st st' h m hm
    rw [List.foldlM_cons] at h
    obtain ⟨st1, hstep, hrest⟩ := optionBind_some h
    have hmn : m ≠ n := fun hc => hm (by simp [hc])
    have hmr : m ∉ rest := fun hc => hm (by simp [hc])
    obtain ⟨h1, h2⟩ := syncStep_preserves_other hstep hmn
    obtain ⟨h3, h4⟩ := ih hrest hmr
    exact ⟨h3.trans h1, h4.trans h2⟩

theorem foldSync_no_new {df : Chars → Chars → List Change}
    {ch : Chars → Nat → Choice} :
    ∀ {names : List Chars} {st st' : SyncState},
      names.foldlM (syncStep df ch) st = some st' → ∀ {m : Chars},
        (((storeLookup st'.store m).isSome = true →
            (storeLookup st.store m).isSome = true ∨ m ∈ names) ∧
          ((st'.doc.getSection m).isSome = true →
            (st.doc.getSection m).isSome = true ∨ m ∈ names)) := by
  intro names
  induction names with
  | nil =>
    intro st st' h m
    simp only [List.foldlM_nil] at h
    cases h
    exact ⟨fun h' => Or.inl h', fun h' => Or.inl h'⟩
  | cons n rest ih =>
    intro st st' h m
    rw [List.foldlM_cons] at h
    obtain ⟨st1, hstep, hrest⟩ := optionBind_some h
    by_cases hmn : m = n
    · exact ⟨fun _ => Or.inr (by simp [hmn]), fun _ => Or.inr (by simp [hmn])⟩
    · obtain ⟨h1, h2⟩ := syncStep_preserves_other hstep hmn
      refine ⟨fun h' => ?_, fun h' => ?_⟩
      · rcases (ih hrest).1 h' with h'' | h''
        · rw [h1] at h''
          exact Or.inl h''
        · exact Or.inr (by simp [h''])
      · rcases (ih hrest).2 h' with h'' | h''
        · rw [h2] at h''
          exact Or.inl h''
        · exact Or.inr (by simp [h''])

theorem foldSync_logs {df : Chars → Chars → List Change}
    {ch : Chars → Nat → Choice} :
    ∀ {names : List Chars} {st st' : SyncState},
      names.foldlM (syncStep df ch) st = some st' →
        ((∀ x ∈ st'.conflicts, x ∈ st.conflicts ∨ x ∈ names) ∧
          (∀ p ∈ st'.skillWrites, p ∈ st.skillWrites ∨ p.1 ∈ names) ∧
          ((st.updated = true ↔ st.upserts ≠ []) →
            (st'.updated = true ↔ st'.upserts ≠ []))) := by
  intro names
  induction names with
  | nil =>
    intro st st' h
    simp only [List.foldlM_nil] at h
    cases h
    exact ⟨fun x hx => Or.inl hx, fun p hp => Or.inl hp, id⟩
  | cons n rest ih =>
    intro st st' h
    rw [List.foldlM_cons] at h
    obtain ⟨st1, hstep, hrest⟩ := optionBind_some h
    obtain ⟨w, u, cf, hw, hu, hcf, hwn, hun, hcfn, hupd⟩ := syncStep_logs hstep
    obtain ⟨ihc, ihw, ihu⟩ := ih hrest
    refine ⟨fun x hx => ?_, fun p hp => ?_, fun hinv => ?_⟩
    · rcases ihc x hx with hx' | hx'
      · rw [hcf] at hx'
        rcases List.mem_append.mp hx' with hx'' | hx''
        · exact Or.inl hx''
        · exact Or.inr (by simp [hcfn x hx''])
      · exact Or.inr (by simp [hx'])
    · rcases ihw p hp with hp' | hp'
      · rw [hw] at hp'
        rcases List.mem_append.mp hp' with hp'' | hp''
        · exact Or.inl hp''
        · exact Or.inr (by simp [hwn p hp''])
      · exact Or.inr (by simp [hp'])
    · refine ihu ?_
      rw [hupd, hu]
      constructor
      · intro hor
        rcases Bool.or_eq_true_iff.mp hor with hh | hh
        · have := hinv.mp hh
          simp only [ne_eq, List.append_eq_nil, not_and]
          intro hc
          exact absurd hc this
        · simp only [Bool.not_eq_true'] at hh
          have hh' : u ≠ [] := List.isEmpty_eq_false.mp hh
          simp only [ne_eq, List.append_eq_nil, not_and]
          intro _
          exact hh'
      · intro hne
        by_cases hu0 : u = []
        · subst hu0
          simp only [List.append_nil] at hne
          simp [hinv.mpr hne]
        · simp [List.isEmpty_eq_false.mpr hu0]

theorem foldSync_matching {df : Chars → Chars → List Change}
    {ch : Chars → Nat → Choice} :
    ∀ {names : List Chars} {st st' : SyncState} {n : Chars} {c : Chars} {s : AgentSection},
      names.Nodup → names.foldlM (syncStep df ch) st = some st' → n ∈ names →
        storeLookup st.store n = some c → st.doc.getSection n = some s →
        normalizeContent c = normalizeContent s.contentString →
        storeLookup st'.store n = some c ∧ st'.doc.getSection n = some s ∧
          (∀ x ∈ st'.conflicts, x ∈ st.conflicts ∨ x ≠ n) ∧
          (∀ p ∈ st'.skillWrites, p ∈ st.skillWrites ∨ p.1 ≠ n) := by
  intro names
  induction names with
  | nil =>
    intro st st' n c s _ _ hmem
    exact absurd hmem (List.not_mem_nil n)
  | cons n0 rest ih =>
    intro st st' n c s hnodup h hmem hc hs heq
    rw [List.foldlM_cons] at h
    obtain ⟨st1, hstep, hrest⟩ := optionBind_some h
    by_cases hn : n = n0
    · subst hn
      have hst1 : st1 = st := by
        rcases (syncStep_spec hstep).2 with
          ⟨s', hl, _, _⟩ | ⟨c', _, hg, _⟩ | ⟨c', s', hl, hg, hne, _⟩ | ⟨rfl, _⟩
        · rw [hl] at hc
          exact absurd hc (by simp)
        · rw [hg] at hs
          exact absurd hs (by simp)
        · rw [hl] at hc
          rw [hg] at hs
          cases hc
          cases hs
          exact absurd heq hne
        · rfl
      subst hst1
      have hnr : n ∉ rest := (List.nodup_cons.mp hnodup).1
      obtain ⟨h1, h2⟩ := foldSync_preserves_other hrest hnr
      refine ⟨h1.trans hc, h2.trans hs, fun x hx => ?_, fun p hp => ?_⟩
      · rcases (foldSync_logs hrest).1 x hx with hx' | hx'
        · exact Or.inl hx'
        · exact Or.inr fun hc' => hnr (hc' ▸ hx')
      · rcases (foldSync_logs hrest).2.1 p hp with hp' | hp'
        · exact Or.inl hp'
        · exact Or.inr fun hc' => hnr (hc' ▸ hp')
    · have hmem' : n ∈ rest := by
        rcases List.mem_cons.mp hmem with h' | h'
        · exact absurd h' hn
        · exact h'
      obtain ⟨h1, h2⟩ := syncStep_preserves_other hstep hn
      obtain ⟨w, u, cf, hw, hu, hcf, hwn, hun, hcfn, _⟩ := syncStep_logs hstep
      obtain ⟨g1, g2, g3, g4⟩ := ih (List.nodup_cons.mp hnodup).2 hrest hmem'
        (h1.trans hc) (h2.trans hs) heq
      refine ⟨g1, g2, fun x hx => ?_, fun p hp => ?_⟩
      · rcases g3 x hx with hx' | hx'
        · rw [hcf] at hx'
          rcases List.mem_append.mp hx' with hx'' | hx''
          · exact Or.inl hx''
          · exact Or.inr fun hc' => hn ((hc' ▸ hcfn x hx'' : n = n0))
        · exact Or.inr hx'
      · rcases g4 p hp with hp' | hp'
        · rw [hw] at hp'
          rcases List.mem_append.mp hp' with hp'' | hp''
          · exact Or.inl hp''
          · exact Or.inr fun hc' => hn (hc' ▸ hwn p hp'')
        · exact Or.inr hp'

theorem foldSync_post {df : Chars → Chars → List Change}
    {ch : Chars → Nat → Choice} :
    ∀ {names : List Chars} {st st' : SyncState} {n : Chars},
      names.Nodup → names.foldlM (syncStep df ch) st = some st' → n ∈ names →
        ((storeLookup st.store n).isSome = true ∨
          (st.doc.getSection n).isSome = true) →
        ∃ c s, storeLookup st'.store n = some c ∧ st'.doc.getSection n = some s ∧
          normalizeContent c = normalizeContent s.contentString := by
  intro names
  induction names with
  | nil =>
    intro st st' n _ _ hmem
    exact absurd hmem (List.not_mem_nil n)
  | cons n0 rest ih =>
    intro st st' n hnodup h hmem hside
    rw [List.foldlM_cons] at h
    obtain ⟨st1, hstep, hrest⟩ := optionBind_some h
    by_cases hn : n = n0
    · subst hn
      obtain ⟨c, s, hc, hs, heq⟩ := syncStep_post hstep hside
      have hnr : n ∉ rest := (List.nodup_cons.mp hnodup).1
      obtain ⟨h1, h2⟩ := foldSync_preserves_other hrest hnr
      exact ⟨c, s, h1.trans hc, h2.trans hs, heq⟩
    · have hmem' : n ∈ rest := by
        rcases List.mem_cons.mp hmem with h' | h'
        · exact absurd h' hn
        · exact h'
      obtain ⟨h1, h2⟩ := syncStep_preserves_other hstep hn
      refine ih (List.nodup_cons.mp hnodup).2 hrest hmem' ?_
      rw [h1, h2]
      exact hside

theorem foldSync_allMatching_id {df : Chars → Chars → List Change}
    {ch : Chars → Nat → Choice} :
    ∀ {names : List Chars} {st : SyncState},
      (∀ n ∈ names, validateName n = true ∧
        ∃ c s, storeLookup st.store n = some c ∧ st.doc.getSection n = some s ∧
          normalizeContent c = normalizeContent s.contentString) →
      names.foldlM (syncStep df ch) st = some st := by
  intro names
  induction names with
  | nil =>
    intro st _
    rfl
  | cons n rest ih =>
    intro st hall
    obtain ⟨hv, c, s, hc, hs, heq⟩ := hall n (by simp)
    rw [List.foldlM_cons, syncStep_matching_noop hv hc hs heq]
    exact ih fun m hm => hall m (by simp [hm])

/-- Unfolding of a successful `runSync` into its parse, loop and write
phases. -/
theorem runSync_spec {df : Chars → Chars → List Change} {ch : Chars → Nat → Choice}
    {store : Store} {file : Option Chars} {r : SyncResult}
    (h : runSync df ch store file = some r) :
    ∃ doc0 st,
      readAgentsDoc file = some doc0 ∧
      (allNamesOf doc0.sectionNames (storeNames store)).foldlM (syncStep df ch)
          ⟨store, doc0, [], [], [], false⟩ = some st ∧
      r.store = st.store ∧ r.doc = st.doc ∧ r.rendered = st.doc.render ∧
      r.skillWrites = st.skillWrites ∧ r.upserts = st.upserts ∧
      r.conflicts = st.conflicts ∧ r.updated = st.updated ∧
      r.docWritten = (st.updated || decide (¬ file = some st.doc.render)) ∧
      r.fileAfter = (if (st.updated || decide (¬ file = some st.doc.render)) = true
        then some st.doc.render else file) := by
  unfold runSync at h
  cases hp : readAgentsDoc file with
  | none =>
    rw [hp] at h
    exact absurd h (by simp)
  | some doc0 =>
    rw [hp] at h
    replace h :
        (match (allNamesOf doc0.sectionNames (storeNames store)).foldlM (syncStep df ch)
            ⟨store, doc0, [], [], [], false⟩ with
          | none => none
          | some st =>
            some (⟨st.store, st.doc, st.doc.render, st.skillWrites, st.upserts,
              st.conflicts, st.updated,
              st.updated || decide (¬ file = some st.doc.render),
              if (st.updated || decide (¬ file = some st.doc.render)) = true
                then some st.doc.render else file⟩ : SyncResult)) = some r := h
    cases hf : (allNamesOf doc0.sectionNames (storeNames store)).foldlM (syncStep df ch)
        ⟨store, doc0, [], [], [], false⟩ with
    | none =>
      rw [hf] at h
      exact absurd h (by simp)
    | some st =>
      rw [hf] at h
      simp only [Option.some.injEq] at h
      subst h
      exact ⟨doc0, st, rfl, hf, rfl, rfl, rfl, rfl, rfl, rfl, rfl, rfl, rfl⟩

/-! ### C3: when the document file is persisted -/

/-- A canonical document text holding one section `alpha`. -/
def c3Text : Chars :=
  "<!-- prime-agent(Start alpha) -->\n## alpha\nline1\nline2\n<!-- prime-agent(End alpha) -->".toList

/-- C3, counterexample: with section `alpha` present and no fragment
`alpha`, sync writes the fragment (a fragment write occurs) yet the
document file is not persisted — the rendered text equals the input and the
`updated` flag is not set by the section-to-fragment branch. -/
theorem c3_persist_counterexample :
    (runSync (fun _ _ => []) (fun _ _ => Choice.skill) [] (some c3Text)).map
        (fun r => (r.skillWrites, r.docWritten)) =
      some ([("alpha".toList, "line1\nline2".toList)], false) := by
  decide

/-- C3 (corrected): the document file is persisted if and only if at least
one section insert/replace occurred in the document (a fragment-to-section
or conflict-resolution upsert) or the rendered text differs from the
original file content; a fragment-only write does not trigger the
document write. -/
theorem c3_persist_iff_amended {df : Chars → Chars → List Change}
    {ch : Chars → Nat → Choice} {store : Store} {file : Option Chars} {r : SyncResult}
    (h : runSync df ch store file = some r) :
    r.docWritten = true ↔ (r.upserts ≠ [] ∨ ¬ file = some r.rendered) := by
  obtain ⟨doc0, st, _, hf, _, _, hrend, _, hups, _, hupd, hw, _⟩ := runSync_spec h
  have hcouple : st.updated = true ↔ st.upserts ≠ [] :=
    (foldSync_logs hf).2.2 (by simp)
  rw [hw, hups, hrend]
  rw [Bool.or_eq_true_iff]
  constructor
  · rintro (h' | h')
    · exact Or.inl (hcouple.mp h')
    · exact Or.inr (of_decide_eq_true h')
  · rintro (h' | h')
    · exact Or.inl (hcouple.mpr h')
    · exact Or.inr (decide_eq_true h')

/-- The outcome of sync on an empty store and an absent document file. -/
def c3Res : SyncResult :=
  ⟨[], AgentsDoc.empty, [], [], [], [], false, true, some []⟩

/-- C3, witness: the write condition instantiated at a concrete run (an
absent file is always written, here with the empty rendering). -/
theorem c3_persist_witness :
    c3Res.docWritten = true ↔
      (c3Res.upserts ≠ [] ∨ ¬ (none : Option Chars) = some c3Res.rendered) :=
  c3_persist_iff_amended
    (show runSync (fun _ _ => []) (fun _ _ => Choice.skill) [] none = some c3Res from
      by decide)

/-! ### C7: matching contents are skipped -/

/-- C7: for a name present on both sides whose fragment content and section
content are identical after normalization (CRLF to LF, trailing newlines
stripped), sync runs no conflict resolution, prompts nothing, and writes
neither the fragment nor the section: both survive unchanged. -/
theorem c7_matching_skips {df : Chars → Chars → List Change}
    {ch : Chars → Nat → Choice} {store : Store} {text : Chars} {r : SyncResult}
    {n c : Chars} {s : AgentSection} {d0 : AgentsDoc}
    (h : runSync df ch store (some text) = some r)
    (hparse : AgentsDoc.parse text = some d0)
    (hc : storeLookup store n = some c)
    (hs : d0.getSection n = some s)
    (heq : normalizeContent c = normalizeContent s.contentString) :
    storeLookup r.store n = some c ∧ r.doc.getSection n = some s ∧
      n ∉ r.conflicts ∧ ∀ p ∈ r.skillWrites, p.1 ≠ n := by
  obtain ⟨doc0, st, hp, hf, hst, hdoc, _, hsw, _, hcf, _, _, _⟩ := runSync_spec h
  have hd0 : doc0 = d0 := by
    replace hp : AgentsDoc.parse text = some doc0 := hp
    rw [hparse] at hp
    injection hp with hp
    exact hp.symm
  subst hd0
  have hmem : n ∈ allNamesOf doc0.sectionNames (storeNames store) := by
    rw [mem_allNamesOf]
    exact Or.inr (storeLookup_isSome_iff.mp (by simp [hc]))
  obtain ⟨g1, g2, g3, g4⟩ := foldSync_matching (nodup_allNamesOf _ _) hf hmem hc hs heq
  rw [hst, hdoc, hcf, hsw]
  refine ⟨g1, g2, fun hcon => ?_, fun p hp' => ?_⟩
  · rcases g3 n hcon with h' | h'
    · exact absurd h' (List.not_mem_nil n)
    · exact h' rfl
  · rcases g4 p hp' with h' | h'
    · exact absurd h' (List.not_mem_nil p)
    · exact h'

/-- A canonical document text holding one section `a` with content `X`. -/
def c7Text : Chars :=
  "<!-- prime-agent(Start a) -->\n## a\nX\n<!-- prime-agent(End a) -->".toList

/-- The outcome of sync on the matching store/document pair. -/
def c7Res : SyncResult :=
  ⟨[("a".toList, "X".toList)],
    ⟨[DocSegment.sec ⟨"a".toList, ["X".toList]⟩]⟩,
    c7Text, [], [], [], false, false, some c7Text⟩

/-- C7, witness: the matching name `a` at a concrete run. -/
theorem c7_matching_witness :
    storeLookup c7Res.store "a".toList = some "X".toList ∧
      c7Res.doc.getSection "a".toList = some ⟨"a".toList, ["X".toList]⟩ ∧
      "a".toList ∉ c7Res.conflicts ∧
      ∀ p ∈ c7Res.skillWrites, p.1 ≠ "a".toList :=
  c7_matching_skips
    (show runSync (fun _ _ => []) (fun _ _ => Choice.skill)
        [("a".toList, "X".toList)] (some c7Text) = some c7Res from by decide)
    (show AgentsDoc.parse c7Text =
        some ⟨[DocSegment.sec ⟨"a".toList, ["X".toList]⟩]⟩ from by decide)
    (by decide) (by decide) (by decide)

/-! ### C10: sync never removes a section or deletes a fragment -/

/-- C10: after a successful `run_sync`, every name in the union of the
initial document's section names and the initial fragment store's listed
names — the union `run_sync` computes and processes — has both a stored
fragment and a section in the document: the run removed no section and
deleted no fragment.  (Every name of the final document or final store is
covered as well.) -/
theorem c10_no_removal {df : Chars → Chars → List Change}
    {ch : Chars → Nat → Choice} {store : Store} {file : Option Chars}
    {r : SyncResult} {d0 : AgentsDoc}
    (h : runSync df ch store file = some r)
    (hd0 : readAgentsDoc file = some d0) :
    ∀ n : Chars,
      (n ∈ d0.sectionNames ∨ n ∈ storeNames store ∨
        n ∈ r.doc.sectionNames ∨ n ∈ storeNames r.store) →
      (storeLookup r.store n).isSome = true ∧ (r.doc.getSection n).isSome = true := by
  obtain ⟨doc0, st, hp, hf, hst, hdoc, _, _, _, _, _, _, _⟩ := runSync_spec h
  have hd : doc0 = d0 := Option.some.inj (hp.symm.trans hd0)
  intro n hn
  rw [← hd] at hn
  have hmem : n ∈ allNamesOf doc0.sectionNames (storeNames store) := by
    rcases hn with hn | hn | hn | hn
    · exact mem_allNamesOf.mpr (Or.inl hn)
    · exact mem_allNamesOf.mpr (Or.inr hn)
    · rw [hdoc] at hn
      rcases (foldSync_no_new hf).2 (getSection_mem_sectionNames.mpr hn) with h' | h'
      · exact mem_allNamesOf.mpr (Or.inl (getSection_mem_sectionNames.mp h'))
      · exact h'
    · rw [hst] at hn
      rcases (foldSync_no_new hf).1 (storeLookup_isSome_iff.mpr hn) with h' | h'
      · exact mem_allNamesOf.mpr (Or.inr (storeLookup_isSome_iff.mp h'))
      · exact h'
  have hside : (storeLookup store n).isSome = true ∨
      (doc0.getSection n).isSome = true := by
    rcases mem_allNamesOf.mp hmem with h' | h'
    · exact Or.inr (getSection_mem_sectionNames.mpr h')
    · exact Or.inl (storeLookup_isSome_iff.mpr h')
  obtain ⟨c, s, hc, hs, _⟩ := foldSync_post (nodup_allNamesOf _ _) hf hmem hside
  rw [hst, hdoc]
  exact ⟨by simp [hc], by simp [hs]⟩

/-- The outcome of sync on store `a ↦ X` with an absent document file. -/
def c10Res : SyncResult :=
  ⟨[("a".toList, "X".toList)],
    ⟨[DocSegment.sec ⟨"a".toList, ["X".toList]⟩]⟩,
    c7Text, [], ["a".toList], [], true, true, some c7Text⟩

/-- C10, witness: the name `a`, listed by the initial store, has both a
stored fragment and a section after a concrete run. -/
theorem c10_no_removal_witness :
    (storeLookup c10Res.store "a".toList).isSome = true ∧
      (c10Res.doc.getSection "a".toList).isSome = true :=
  c10_no_removal
    (show runSync (fun _ _ => []) (fun _ _ => Choice.skill)
        [("a".toList, "X".toList)] none = some c10Res from by decide)
    (show readAgentsDoc none = some AgentsDoc.empty from rfl)
    "a".toList (Or.inr (Or.inl (by decide)))

/-! ### Line and name well-formedness (towards C4) -/

theorem mem_splitOnP_false {α : Type _} (p : α → Bool) :
    ∀ {xs l : List α}, l ∈ xs.splitOnP p → ∀ x ∈ l, p x = false := by
  intro xs
  induction xs with
  | nil =>
    intro l hl x hx
    simp only [List.splitOnP_nil, List.mem_singleton] at hl
    subst hl
    exact absurd hx (List.not_mem_nil x)
  | cons a xs' ih =>
    intro l hl x hx
    rw [List.splitOnP_cons] at hl
    by_cases hpa : p a
    · rw [if_pos hpa] at hl
      rcases List.mem_cons.mp hl with rfl | hl
      · exact absurd hx (List.not_mem_nil x)
      · exact ih hl x hx
    · rw [if_neg hpa] at hl
      cases hsp : xs'.splitOnP p with
      | nil => exact absurd hsp (List.splitOnP_ne_nil p xs')
      | cons h t =>
        rw [hsp] at hl
        simp only [List.modifyHead] at hl
        rcases List.mem_cons.mp hl with rfl | hl
        · rcases List.mem_cons.mp hx with rfl | hx
          · simpa using hpa
          · exact ih (by rw [hsp]; exact List.mem_cons_self h t) x hx
        · exact ih (by rw [hsp]; exact List.mem_cons_of_mem h hl) x hx

theorem mem_splitOn_not_mem {α : Type _} [DecidableEq α] {xs l : List α} {a : α}
    (h : l ∈ xs.splitOn a) : a ∉ l := by
  intro hmem
  have := mem_splitOnP_false (fun x => x == a) h a hmem
  simp at this

/-- Every line produced by `splitPTN` is free of newline characters. -/
theorem splitPTN_no_newline {contents : Chars} {l : Chars}
    (h : l ∈ splitPTN contents) : '\n' ∉ l := by
  unfold splitPTN at h
  by_cases hc : contents = []
  · rw [if_pos hc] at h
    exact absurd h (List.not_mem_nil l)
  · rw [if_neg hc] at h
    exact mem_splitOn_not_mem h

theorem trimEnd_last_nonws {l : Chars} {c : Char} (h : isWs c = false) :
    trimEnd (l ++ [c]) = l ++ [c] := by
  unfold trimEnd
  rw [List.reverse_append]
  simp only [List.reverse_cons, List.reverse_nil, List.nil_append, List.singleton_append,
    List.dropWhile_cons]
  rw [h]
  simp

theorem trimEnd_nil : trimEnd [] = [] := rfl

/-- A name usable in marker lines: nonempty, not starting or ending with
whitespace, and free of newlines. -/
def TrimmedName (n : Chars) : Prop :=
  n ≠ [] ∧ (∀ c, n.head? = some c → isWs c = false) ∧
    (∀ c, n.getLast? = some c → isWs c = false) ∧ '\n' ∉ n

theorem dropWhile_eq_self_of_head {p : Char → Bool} {l : Chars}
    (h : ∀ c, l.head? = some c → p c = false) : l.dropWhile p = l := by
  cases l with
  | nil => rfl
  | cons c rest =>
    rw [List.dropWhile_cons, h c rfl]
    simp

theorem trimEnd_eq_self_of_last {l : Chars}
    (h : ∀ c, l.getLast? = some c → isWs c = false) : trimEnd l = l := by
  cases hl : l.reverse with
  | nil =>
    have : l = [] := by simpa using congrArg List.reverse hl
    subst this
    rfl
  | cons c rest =>
    have hlast : l.getLast? = some c := by
      rw [List.getLast?_eq_head?_reverse, hl]
      rfl
    unfold trimEnd
    rw [hl, List.dropWhile_cons, h c hlast]
    simp only [Bool.false_eq_true, if_false]
    rw [← hl, List.reverse_reverse]

theorem trimBoth_eq_self {n : Chars} (h : TrimmedName n) : trimBoth n = n := by
  obtain ⟨_, hh, hl, _⟩ := h
  unfold trimBoth
  rw [dropWhile_eq_self_of_head hh]
  exact trimEnd_eq_self_of_last hl

/-- `parse_start_marker` recognises the rendered start marker of a trimmed
name and returns the name itself. -/
theorem parseStartMarker_startMarker {n : Chars} (h : TrimmedName n) :
    parseStartMarker (startMarker n) = some n := by
  unfold parseStartMarker startMarker
  have hpre : startPre.isPrefixOf (startPre ++ n ++ closeSuf) = true := by
    rw [List.isPrefixOf_iff_prefix, List.append_assoc]
    exact List.prefix_append _ _
  have hsuf : closeSuf.isSuffixOf (startPre ++ n ++ closeSuf) = true := by
    rw [List.isSuffixOf_iff_suffix]
    exact List.suffix_append _ _
  rw [hpre, hsuf]
  simp only [Bool.and_self, if_true]
  have hdrop : (startPre ++ n ++ closeSuf).drop startPre.length = n ++ closeSuf := by
    rw [List.append_assoc]
    exact List.drop_left startPre (n ++ closeSuf)
  have hlen : (startPre ++ n ++ closeSuf).length - startPre.length - closeSuf.length
      = n.length := by
    simp [List.length_append]
  rw [hdrop, hlen, List.take_left' rfl, trimBoth_eq_self h]
  rw [if_neg h.1]

theorem trimEnd_headerFor {n : Chars} (h : TrimmedName n) :
    trimEnd (headerFor n) = headerFor n := by
  obtain ⟨hne, _, hl, _⟩ := h
  refine trimEnd_eq_self_of_last ?_
  intro c hc
  unfold headerFor at hc
  rw [List.getLast?_append_of_ne_nil _ hne] at hc
  exact hl c hc

theorem isEndMarker_endMarker (n : Chars) : isEndMarker (endMarker n) n = true := by
  unfold isEndMarker
  have : endMarker n = (endPre ++ n ++ [')', ' ', '-', '-']) ++ ['>'] := by
    unfold endMarker closeSuf
    simp [List.append_assoc]
  rw [this, trimEnd_last_nonws (by decide), ← this]
  simp

/-- Well-formedness of a section name for faithful re-parsing. -/
def NameWF (n : Chars) : Prop :=
  parseStartMarker (startMarker n) = some n ∧
    trimEnd (headerFor n) = headerFor n ∧ '\n' ∉ n

theorem nameWF_of_trimmed {n : Chars} (h : TrimmedName n) : NameWF n :=
  ⟨parseStartMarker_startMarker h, trimEnd_headerFor h, h.2.2.2⟩

theorem validChar_not_ws {c : Char} (h : isValidNameChar c = true) : isWs c = false := by
  by_contra hws
  rw [Bool.not_eq_false] at hws
  unfold isWs at hws
  repeat rw [Bool.or_eq_true] at hws
  rcases hws with ((h1 | h1) | h1) | h1 <;>
    rw [beq_iff_eq] at h1 <;> subst h1 <;> exact absurd h (by decide)

/-- A validated skill name is trimmed. -/
theorem trimmedName_of_valid {n : Chars} (h : validateName n = true) : TrimmedName n := by
  unfold validateName at h
  rw [Bool.and_eq_true] at h
  obtain ⟨hne, hall⟩ := h
  have hne' : n ≠ [] := by
    intro hc
    subst hc
    simp at hne
  have hchar : ∀ c ∈ n, isWs c = false := fun c hc =>
    validChar_not_ws ((List.all_eq_true.mp hall) c hc)
  refine ⟨hne', ?_, ?_, ?_⟩
  · intro c hc
    exact hchar c (List.mem_of_mem_head? hc)
  · intro c hc
    exact hchar c (List.mem_of_getLast?_eq_some hc)
  · intro hc
    exact absurd (hchar '\n' hc) (by decide)

theorem head?_dropWhile_false {p : Char → Bool} :
    ∀ {l : Chars} {c : Char}, (l.dropWhile p).head? = some c → p c = false := by
  intro l
  induction l with
  | nil => intro c h; simp at h
  | cons a rest ih =>
    intro c h
    rw [List.dropWhile_cons] at h
    by_cases hpa : p a
    · rw [if_pos hpa] at h
      exact ih h
    · rw [if_neg hpa] at h
      simp only [List.head?_cons, Option.some.injEq] at h
      subst h
      exact Bool.eq_false_iff.mpr hpa

theorem trimEnd_prefix (y : Chars) : trimEnd y <+: y := by
  unfold trimEnd
  have h1 : y.reverse.dropWhile isWs <:+ y.reverse := List.dropWhile_suffix _
  have h2 := h1.reverse
  rwa [List.reverse_reverse] at h2

theorem prefix_head?_eq {l₁ l₂ : Chars} (h : l₁ <+: l₂) (hne : l₁ ≠ []) :
    l₂.head? = l₁.head? := by
  obtain ⟨t, rfl⟩ := h
  cases l₁ with
  | nil => exact absurd rfl hne
  | cons a r => rfl

theorem getLast?_trimEnd_false {y : Chars} {c : Char}
    (h : (trimEnd y).getLast? = some c) : isWs c = false := by
  unfold trimEnd at h
  rw [List.getLast?_reverse] at h
  exact head?_dropWhile_false h

/-- A name extracted by `parse_start_marker` from a newline-free line is
trimmed. -/
theorem trimmedName_of_parseStartMarker {l n : Chars} (hnl : '\n' ∉ l)
    (h : parseStartMarker l = some n) : TrimmedName n := by
  unfold parseStartMarker at h
  by_cases hc : startPre.isPrefixOf l && closeSuf.isSuffixOf l
  · rw [if_pos hc] at h
    set mid := (l.drop startPre.length).take
      (l.length - startPre.length - closeSuf.length) with hmid
    by_cases hn0 : trimBoth mid = []
    · rw [if_pos hn0] at h
      exact absurd h (by simp)
    · rw [if_neg hn0] at h
      simp only [Option.some.injEq] at h
      subst h
      have hmidl : ∀ x ∈ mid, x ∈ l := by
        intro x hx
        have h1 : List.Sublist mid (l.drop startPre.length) := List.take_sublist _ _
        have h2 : List.Sublist (l.drop startPre.length) l := List.drop_sublist _ _
        exact (h1.trans h2).subset hx
      have hsub : ∀ x ∈ trimBoth mid, x ∈ mid := by
        intro x hx
        have h1 : trimBoth mid <+: mid.dropWhile isWs := by
          unfold trimBoth
          exact trimEnd_prefix _
        have h2 : List.Sublist (mid.dropWhile isWs) mid := List.dropWhile_sublist _
        exact h2.subset (h1.sublist.subset hx)
      refine ⟨hn0, ?_, ?_, ?_⟩
      · intro c hhead
        have hpre : trimBoth mid <+: mid.dropWhile isWs := by
          unfold trimBoth
          exact trimEnd_prefix _
        have := prefix_head?_eq hpre hn0
        rw [hhead] at this
        exact head?_dropWhile_false this
      · intro c hlast
        unfold trimBoth at hlast
        exact getLast?_trimEnd_false hlast
      · intro hmem
        exact hnl (hmidl _ (hsub _ hmem))
  · rw [if_neg hc] at h
    exact absurd h (by simp)

/-! ### Document well-formedness and exact re-parse (towards C4) -/

/-- Well-formedness of one segment for faithful re-parsing: text spans are
nonempty and hold newline-free non-marker lines; sections have well-formed
names and newline-free content. -/
def segWF : DocSegment → Prop
  | DocSegment.text tl => tl ≠ [] ∧ ∀ l ∈ tl, '\n' ∉ l ∧ parseStartMarker l = none
  | DocSegment.sec s => NameWF s.name ∧ ∀ l ∈ s.content_lines, '\n' ∉ l

/-- Two adjacent segments may not both be text spans. -/
def adjOK (a b : DocSegment) : Prop :=
  isSecB a = true ∨ isSecB b = true

/-- Well-formedness of a whole segment list. -/
def docWF (segs : List DocSegment) : Prop :=
  (∀ seg ∈ segs, segWF seg) ∧ List.Chain' adjOK segs

/-- One segment holds no content line read as its own end marker. -/
def segNoOwnEnd : DocSegment → Prop
  | DocSegment.text _ => True
  | DocSegment.sec s => ∀ l ∈ s.content_lines, isEndMarker l s.name = false

instance (seg : DocSegment) : Decidable (segNoOwnEnd seg) := by
  cases seg with
  | text tl => exact isTrue trivial
  | sec s => unfold segNoOwnEnd; infer_instance

/-- No section's content contains a line read as its own end marker. -/
def NoOwnEnd (segs : List DocSegment) : Prop :=
  ∀ seg ∈ segs, segNoOwnEnd seg

instance (segs : List DocSegment) : Decidable (NoOwnEnd segs) := by
  unfold NoOwnEnd
  infer_instance

theorem adjOK_sec_left (s : AgentSection) (b : DocSegment) :
    adjOK (DocSegment.sec s) b := Or.inl rfl

theorem adjOK_sec_right (a : DocSegment) (s : AgentSection) :
    adjOK a (DocSegment.sec s) := Or.inr rfl

theorem chain'_append_sec {pre post : List DocSegment} {s : AgentSection}
    (hpre : List.Chain' adjOK pre) (hpost : List.Chain' adjOK post) :
    List.Chain' adjOK (pre ++ DocSegment.sec s :: post) := by
  rw [List.chain'_append]
  refine ⟨hpre, ?_, ?_⟩
  · rw [List.chain'_cons']
    exact ⟨fun y hy => adjOK_sec_left s y, hpost⟩
  · intro x _ y hy
    simp only [List.head?_cons, Option.mem_def, Option.some.injEq] at hy
    subst hy
    exact adjOK_sec_right x s

theorem docWF_decompose {pre post : List DocSegment} {seg : DocSegment}
    (h : docWF (pre ++ seg :: post)) :
    List.Chain' adjOK pre ∧ List.Chain' adjOK post ∧
      (∀ x ∈ pre, segWF x) ∧ segWF seg ∧ (∀ x ∈ post, segWF x) := by
  obtain ⟨hmem, hchain⟩ := h
  rw [List.chain'_append] at hchain
  have hpost : List.Chain' adjOK post := (List.chain'_cons'.mp hchain.2.1).2
  exact ⟨hchain.1, hpost, fun x hx => hmem x (by simp [hx]),
    hmem seg (by simp), fun x hx => hmem x (by simp [hx])⟩

/-- Upsert with a well-formed section preserves document well-formedness. -/
theorem upsert_docWF {d : AgentsDoc} {s : AgentSection}
    (h : docWF d.segments) (hs : segWF (DocSegment.sec s)) :
    docWF (d.upsertSection s).segments := by
  by_cases hmem : s.name ∈ d.sectionNames
  · obtain ⟨pre, x, post, hseg, _, _, hout⟩ := (upsertSection_spec d s).1 hmem
    rw [hseg] at h
    obtain ⟨hc1, hc2, hm1, _, hm3⟩ := docWF_decompose h
    rw [hout]
    refine ⟨?_, chain'_append_sec hc1 hc2⟩
    intro seg hseg'
    rcases List.mem_append.mp hseg' with h' | h'
    · exact hm1 seg h'
    · rcases List.mem_cons.mp h' with rfl | h'
      · exact hs
      · exact hm3 seg h'
  · rcases (upsertSection_spec d s).2 hmem with
      ⟨pre, x, post, hseg, _, hout⟩ | ⟨hall, hout⟩
    · rw [hseg] at h
      obtain ⟨hc1, hc2, hm1, hm2, hm3⟩ := docWF_decompose h
      rw [hout]
      have hc2' : List.Chain' adjOK (DocSegment.sec s :: post) := by
        rw [List.chain'_cons']
        exact ⟨fun y _ => adjOK_sec_left s y, hc2⟩
      refine ⟨?_, ?_⟩
      · intro seg hseg'
        rcases List.mem_append.mp hseg' with h' | h'
        · exact hm1 seg h'
        · rcases List.mem_cons.mp h' with rfl | h'
          · exact hm2
          · rcases List.mem_cons.mp h' with rfl | h'
            · exact hs
            · exact hm3 seg h'
      · have := chain'_append_sec (s := x) hc1 hc2'
        simpa using this
    · rw [hout]
      refine ⟨?_, ?_⟩
      · intro seg hseg'
        rcases List.mem_append.mp hseg' with h' | h'
        · exact h.1 seg h'
        · rcases List.mem_cons.mp h' with rfl | h'
          · exact hs
          · exact absurd h' (List.not_mem_nil seg)
      · have : List.Chain' adjOK (d.segments ++ DocSegment.sec s :: []) :=
          chain'_append_sec h.2 List.chain'_nil
        simpa using this

/-- Whether the head segment (if any) is a section. -/
def headSec : List DocSegment → Prop
  | [] => True
  | seg :: _ => isSecB seg = true

/-- Well-formedness of the scanning mode's pending data. -/
def modeWF : PMode → Prop
  | PMode.top => True
  | PMode.expectHeader name => TrimmedName name
  | PMode.inSec name content => TrimmedName name ∧ ∀ l ∈ content, '\n' ∉ l

/-- Invariant of the parse loop state implying well-formedness of the
produced document. -/
structure PInv (st : PState) : Prop where
  seg : ∀ seg ∈ st.segsRev, segWF seg
  chain : List.Chain' adjOK st.segsRev.reverse
  accWF : ∀ l ∈ st.acc, '\n' ∉ l ∧ parseStartMarker l = none
  accNil : st.mode ≠ PMode.top → st.acc = []
  modeOK : modeWF st.mode
  headOK : st.mode = PMode.top → headSec st.segsRev

theorem chain'_snoc_headSec {segsRev : List DocSegment} {seg : DocSegment}
    (hchain : List.Chain' adjOK segsRev.reverse)
    (hok : headSec segsRev ∨ isSecB seg = true) :
    List.Chain' adjOK (segsRev.reverse ++ [seg]) := by
  rw [List.chain'_append]
  refine ⟨hchain, List.chain'_singleton seg, ?_⟩
  intro x hx y hy
  simp only [List.head?_cons, Option.mem_def, Option.some.injEq] at hy
  subst hy
  rcases hok with hok | hok
  · cases segsRev with
    | nil => simp at hx
    | cons a rest =>
      rw [List.reverse_cons, List.getLast?_append_of_ne_nil _ (by simp)] at hx
      simp only [List.getLast?_singleton, Option.mem_def, Option.some.injEq] at hx
      subst hx
      exact Or.inl hok
  · exact Or.inr hok

theorem parseStep_PInv {st st' : PState} {l : Chars} (hnl : '\n' ∉ l)
    (hinv : PInv st) (h : parseStep st l = some st') : PInv st' := by
  obtain ⟨hmem, hchain, hacc, haccm, hmode, hhead⟩ := hinv
  obtain ⟨sr, acc, mode⟩ := st
  cases mode with
  | top =>
    cases hm : parseStartMarker l with
    | some name =>
      simp only [parseStep, hm, Option.some.injEq] at h
      subst h
      have htrim : TrimmedName name := trimmedName_of_parseStartMarker hnl hm
      refine ⟨?_, ?_, by simp, by simp, htrim, by simp⟩
      · intro seg hseg
        unfold flushRev at hseg
        split at hseg
        · exact hmem seg hseg
        · rcases List.mem_cons.mp hseg with rfl | hseg
          · rename_i hacc0
            exact ⟨hacc0, fun l' hl' => hacc l' hl'⟩
          · exact hmem seg hseg
      · unfold flushRev
        split
        · exact hchain
        · simp only [List.reverse_cons]
          exact chain'_snoc_headSec hchain (Or.inl (hhead rfl))
    | none =>
      simp only [parseStep, hm, Option.some.injEq] at h
      subst h
      refine ⟨hmem, hchain, ?_, by simp, trivial, fun _ => hhead rfl⟩
      intro l' hl'
      rcases List.mem_append.mp hl' with h' | h'
      · exact hacc l' h'
      · rcases List.mem_singleton.mp h' with rfl
        exact ⟨hnl, hm⟩
  | expectHeader name =>
    simp only [parseStep] at h
    split at h
    · simp only [Option.some.injEq] at h
      subst h
      have hacc0 : acc = [] := haccm (by simp)
      exact ⟨hmem, hchain, hacc, fun _ => hacc0, ⟨hmode, by simp⟩, by simp⟩
    · exact absurd h (by simp)
  | inSec name content =>
    simp only [parseStep] at h
    have hacc0 : acc = [] := haccm (by simp)
    obtain ⟨hname, hcont⟩ := hmode
    split at h
    · simp only [Option.some.injEq] at h
      subst h
      refine ⟨?_, ?_, hacc, fun _ => hacc0, trivial, fun _ => rfl⟩
      · intro seg hseg
        rcases List.mem_cons.mp hseg with rfl | hseg
        · exact ⟨nameWF_of_trimmed hname, hcont⟩
        · exact hmem seg hseg
      · simp only [List.reverse_cons]
        exact chain'_snoc_headSec hchain (Or.inr rfl)
    · simp only [Option.some.injEq] at h
      subst h
      refine ⟨hmem, hchain, hacc, fun _ => hacc0, ⟨hname, ?_⟩, by simp⟩
      intro l' hl'
      rcases List.mem_append.mp hl' with h' | h'
      · exact hcont l' h'
      · rcases List.mem_singleton.mp h' with rfl
        exact hnl

theorem parseFold_PInv :
    ∀ {ls : List Chars} {st st' : PState}, (∀ l ∈ ls, '\n' ∉ l) →
      PInv st → parseFold st ls = some st' → PInv st' := by
  intro ls
  induction ls with
  | nil =>
    intro st st' _ hinv h
    simp only [parseFold, Option.some.injEq] at h
    subst h
    exact hinv
  | cons l rest ih =>
    intro st st' hnl hinv h
    simp only [parseFold] at h
    cases hs : parseStep st l with
    | none => rw [hs] at h; exact absurd h (by simp)
    | some st1 =>
      rw [hs] at h
      exact ih (fun x hx => hnl x (by simp [hx]))
        (parseStep_PInv (hnl l (by simp)) hinv hs) h

theorem parseLines_docWF {ls : List Chars} {segs : List DocSegment}
    (hnl : ∀ l ∈ ls, '\n' ∉ l) (h : parseLines ls = some segs) : docWF segs := by
  unfold parseLines at h
  cases hf : parseFold pInit ls with
  | none => rw [hf] at h; exact absurd h (by simp)
  | some st =>
    rw [hf] at h
    have hinv : PInv st := parseFold_PInv hnl
      (by exact ⟨by simp [pInit], by simp [pInit], by simp [pInit], by simp [pInit],
        trivial, by simp [pInit, headSec]⟩) hf
    obtain ⟨hmem, hchain, hacc, _, _, hhead⟩ := hinv
    obtain ⟨sr, acc, mode⟩ := st
    cases mode with
    | top =>
      simp only [parseFinish, Option.some.injEq] at h
      subst h
      refine ⟨?_, ?_⟩
      · intro seg hseg
        rcases List.mem_append.mp hseg with h' | h'
        · exact hmem seg (List.mem_reverse.mp h')
        · unfold flushText at h'
          split at h'
          · exact absurd h' (List.not_mem_nil seg)
          · rcases List.mem_cons.mp h' with rfl | h'
            · rename_i hacc0
              exact ⟨hacc0, fun l' hl' => hacc l' hl'⟩
            · exact absurd h' (List.not_mem_nil seg)
      · unfold flushText
        split
        · simpa using hchain
        · exact chain'_snoc_headSec hchain (Or.inl (hhead rfl))
    | expectHeader name => simp [parseFinish] at h
    | inSec name content => simp [parseFinish] at h

/-- The document obtained from `AgentsDoc.parse` is well-formed. -/
theorem parse_docWF {t : Chars} {d : AgentsDoc}
    (h : AgentsDoc.parse t = some d) : docWF d.segments := by
  unfold AgentsDoc.parse at h
  cases hp : parseLines (splitPTN t) with
  | none => rw [hp] at h; exact absurd h (by simp)
  | some segs =>
    rw [hp] at h
    simp only [Option.map_eq_some', Option.some.injEq] at h
    obtain ⟨segs', hsegs', hd⟩ := h
    cases hsegs'
    subst hd
    exact parseLines_docWF (fun l hl => splitPTN_no_newline hl) hp

theorem docWF_nil : docWF [] := ⟨fun seg hseg => absurd hseg (List.not_mem_nil seg), trivial⟩

theorem foldSync_valid {df : Chars → Chars → List Change}
    {ch : Chars → Nat → Choice} :
    ∀ {names : List Chars} {st st' : SyncState},
      names.foldlM (syncStep df ch) st = some st' →
      ∀ n ∈ names, validateName n = true := by
  intro names
  induction names with
  | nil =>
    intro st st' _ n hn
    exact absurd hn (List.not_mem_nil n)
  | cons n0 rest ih =>
    intro st st' h n hn
    rw [List.foldlM_cons] at h
    obtain ⟨st1, hstep, hrest⟩ := optionBind_some h
    rcases List.mem_cons.mp hn with rfl | hn
    · exact (syncStep_spec hstep).1
    · exact ih hrest n hn

theorem syncStep_docWF {df : Chars → Chars → List Change}
    {ch : Chars → Nat → Choice} {st : SyncState} {n : Chars} {st' : SyncState}
    (h : syncStep df ch st n = some st') (hwf : docWF st.doc.segments) :
    docWF st'.doc.segments := by
  have hv := (syncStep_spec h).1
  have htrim := trimmedName_of_valid hv
  rcases (syncStep_spec h).2 with
    ⟨s, _, _, rfl⟩ | ⟨c, _, _, rfl⟩ | ⟨c, s, _, _, _, rfl⟩ | ⟨rfl, _⟩
  · exact hwf
  · refine upsert_docWF hwf ⟨nameWF_of_trimmed htrim, ?_⟩
    intro l hl
    exact splitPTN_no_newline hl
  · refine upsert_docWF hwf ⟨nameWF_of_trimmed htrim, ?_⟩
    intro l hl
    exact splitPTN_no_newline hl
  · exact hwf

theorem foldSync_docWF {df : Chars → Chars → List Change}
    {ch : Chars → Nat → Choice} :
    ∀ {names : List Chars} {st st' : SyncState},
      names.foldlM (syncStep df ch) st = some st' →
      docWF st.doc.segments → docWF st'.doc.segments := by
  intro names
  induction names with
  | nil =>
    intro st st' h hwf
    simp only [List.foldlM_nil] at h
    cases h
    exact hwf
  | cons n0 rest ih =>
    intro st st' h hwf
    rw [List.foldlM_cons] at h
    obtain ⟨st1, hstep, hrest⟩ := optionBind_some h
    exact ih hrest (syncStep_docWF hstep hwf)

/-! ### Re-parsing a rendered well-formed document -/

theorem parseFold_append (a b : List Chars) (st : PState) :
    parseFold st (a ++ b) =
      match parseFold st a with
      | none => none
      | some st' => parseFold st' b := by
  induction a generalizing st with
  | nil => rfl
  | cons l rest ih =>
    simp only [List.cons_append, parseFold]
    cases parseStep st l with
    | none => rfl
    | some st1 => exact ih st1

theorem runP_append (a b : List Chars) (st : PState) :
    runP st (a ++ b) =
      match parseFold st a with
      | none => none
      | some st' => runP st' b := by
  unfold runP
  rw [parseFold_append]
  cases parseFold st a <;> rfl

theorem parseFold_textLines {tl : List Chars}
    (h : ∀ l ∈ tl, parseStartMarker l = none) :
    ∀ (sr : List DocSegment) (acc : List Chars),
      parseFold ⟨sr, acc, PMode.top⟩ tl = some ⟨sr, acc ++ tl, PMode.top⟩ := by
  induction tl with
  | nil =>
    intro sr acc
    simp [parseFold]
  | cons l rest ih =>
    intro sr acc
    simp only [parseFold, parseStep, h l (by simp)]
    rw [ih (fun x hx => h x (by simp [hx])) sr (acc ++ [l])]
    simp

theorem parseFold_content {name : Chars} {content : List Chars}
    (h : ∀ l ∈ content, isEndMarker l name = false) :
    ∀ (sr : List DocSegment) (c0 : List Chars),
      parseFold ⟨sr, [], PMode.inSec name c0⟩ content =
        some ⟨sr, [], PMode.inSec name (c0 ++ content)⟩ := by
  induction content with
  | nil =>
    intro sr c0
    simp [parseFold]
  | cons l rest ih =>
    intro sr c0
    have hstep : parseStep ⟨sr, [], PMode.inSec name c0⟩ l =
        some ⟨sr, [], PMode.inSec name (c0 ++ [l])⟩ := by
      simp [parseStep, h l (by simp)]
    simp only [parseFold, hstep]
    rw [ih (fun x hx => h x (by simp [hx])) sr (c0 ++ [l])]
    simp

theorem parseFold_secLines {s : AgentSection}
    (hwf : segWF (DocSegment.sec s))
    (hend : ∀ l ∈ s.content_lines, isEndMarker l s.name = false)
    (sr : List DocSegment) (acc : List Chars) :
    parseFold ⟨sr, acc, PMode.top⟩ (segLines (DocSegment.sec s)) =
      some ⟨DocSegment.sec s :: flushRev acc sr, [], PMode.top⟩ := by
  obtain ⟨⟨hm, hh, _⟩, _⟩ := hwf
  have h1 : parseStep ⟨sr, acc, PMode.top⟩ (startMarker s.name) =
      some ⟨flushRev acc sr, [], PMode.expectHeader s.name⟩ := by
    simp [parseStep, hm]
  have h2 : parseStep ⟨flushRev acc sr, [], PMode.expectHeader s.name⟩ (headerFor s.name) =
      some ⟨flushRev acc sr, [], PMode.inSec s.name []⟩ := by
    simp [parseStep, hh]
  have h3 : parseStep ⟨flushRev acc sr, [], PMode.inSec s.name s.content_lines⟩
      (endMarker s.name) =
      some ⟨DocSegment.sec ⟨s.name, s.content_lines⟩ :: flushRev acc sr, [], PMode.top⟩ := by
    simp [parseStep, isEndMarker_endMarker]
  show parseFold ⟨sr, acc, PMode.top⟩
    (startMarker s.name :: headerFor s.name :: (s.content_lines ++ [endMarker s.name])) = _
  simp only [parseFold, h1, h2]
  rw [parseFold_append]
  rw [parseFold_content hend (flushRev acc sr) []]
  simp only [List.nil_append, parseFold, h3]

theorem renderLines_cons (seg : DocSegment) (rest : List DocSegment) :
    renderLines (seg :: rest) = segLines seg ++ renderLines rest := by
  simp [renderLines]

theorem segLines_ne_nil {seg : DocSegment} (h : segWF seg) : segLines seg ≠ [] := by
  cases seg with
  | text tl => exact h.1
  | sec s => simp [segLines]

theorem docWF_cons {seg : DocSegment} {rest : List DocSegment}
    (h : docWF (seg :: rest)) :
    segWF seg ∧ docWF rest ∧ ∀ b ∈ rest.head?, adjOK seg b := by
  obtain ⟨hmem, hchain⟩ := h
  rw [List.chain'_cons'] at hchain
  exact ⟨hmem seg (by simp), ⟨fun x hx => hmem x (by simp [hx]), hchain.2⟩, hchain.1⟩

theorem noOwnEnd_cons {seg : DocSegment} {rest : List DocSegment}
    (h : NoOwnEnd (seg :: rest)) : NoOwnEnd rest :=
  fun s hs => h s (by simp [hs])

theorem runP_renderLines :
    ∀ {segs : List DocSegment} (sr : List DocSegment) (acc : List Chars),
      docWF segs → NoOwnEnd segs → (acc ≠ [] → headSec segs) →
      runP ⟨sr, acc, PMode.top⟩ (renderLines segs) =
        some (sr.reverse ++ flushText acc segs) := by
  intro segs
  induction segs with
  | nil =>
    intro sr acc _ _ _
    rfl
  | cons seg rest ih =>
    intro sr acc hwf hend hacc
    obtain ⟨hseg, hrest, hadj⟩ := docWF_cons hwf
    rw [renderLines_cons, runP_append]
    cases seg with
    | text tl =>
      obtain ⟨htl_ne, htl⟩ := hseg
      have hacc0 : acc = [] := by
        by_contra hc
        have := hacc hc
        simp [headSec, isSecB] at this
      subst hacc0
      rw [show segLines (DocSegment.text tl) = tl from rfl]
      rw [parseFold_textLines (fun l hl => (htl l hl).2) sr []]
      show runP ⟨sr, [] ++ tl, PMode.top⟩ (renderLines rest) = _
      simp only [List.nil_append]
      rw [ih sr tl hrest (noOwnEnd_cons hend) ?_]
      · rw [show flushText tl rest = DocSegment.text tl :: rest from by
          unfold flushText
          rw [if_neg htl_ne]]
        rfl
      · intro _
        cases rest with
        | nil => trivial
        | cons b rest' =>
          have := hadj b (by simp)
          rcases this with h' | h'
          · simp [isSecB] at h'
          · exact h'
    | sec s =>
      have hends : ∀ l ∈ s.content_lines, isEndMarker l s.name = false :=
        hend (DocSegment.sec s) (by simp)
      rw [parseFold_secLines hseg hends sr acc]
      show runP ⟨DocSegment.sec s :: flushRev acc sr, [], PMode.top⟩ (renderLines rest) = _
      rw [ih (DocSegment.sec s :: flushRev acc sr) [] hrest (noOwnEnd_cons hend)
        (fun hc => absurd rfl hc)]
      unfold flushText flushRev
      split
      · rename_i hacc0
        subst hacc0
        simp
      · simp

theorem mem_chars_startMarker {n : Chars} (hn : '\n' ∉ n) :
    '\n' ∉ startMarker n := by
  unfold startMarker
  intro h
  rcases List.mem_append.mp h with h | h
  · rcases List.mem_append.mp h with h | h
    · revert h
      decide
    · exact hn h
  · revert h
    decide

theorem mem_chars_endMarker {n : Chars} (hn : '\n' ∉ n) :
    '\n' ∉ endMarker n := by
  unfold endMarker
  intro h
  rcases List.mem_append.mp h with h | h
  · rcases List.mem_append.mp h with h | h
    · revert h
      decide
    · exact hn h
  · revert h
    decide

theorem mem_chars_headerFor {n : Chars} (hn : '\n' ∉ n) :
    '\n' ∉ headerFor n := by
  unfold headerFor
  intro h
  rcases List.mem_append.mp h with h | h
  · revert h
    decide
  · exact hn h

theorem renderLines_no_newline :
    ∀ {segs : List DocSegment}, (∀ seg ∈ segs, segWF seg) →
      ∀ l ∈ renderLines segs, '\n' ∉ l := by
  intro segs
  induction segs with
  | nil =>
    intro _ l hl
    simp [renderLines] at hl
  | cons seg rest ih =>
    intro h l hl
    rw [renderLines_cons] at hl
    rcases List.mem_append.mp hl with hl | hl
    · have hseg := h seg (by simp)
      cases seg with
      | text tl => exact ((hseg.2) l hl).1
      | sec s =>
        obtain ⟨⟨_, _, hnn⟩, hcont⟩ := hseg
        unfold segLines at hl
        rcases List.mem_cons.mp hl with rfl | hl
        · exact mem_chars_startMarker hnn
        · rcases List.mem_cons.mp hl with rfl | hl
          · exact mem_chars_headerFor hnn
          · rcases List.mem_append.mp hl with hl | hl
            · exact hcont l hl
            · rcases List.mem_singleton.mp hl with rfl
              exact mem_chars_endMarker hnn
    · exact ih (fun x hx => h x (by simp [hx])) l hl

theorem renderLines_eq_nil {segs : List DocSegment}
    (h : ∀ seg ∈ segs, segWF seg) (hr : renderLines segs = []) : segs = [] := by
  cases segs with
  | nil => rfl
  | cons seg rest =>
    rw [renderLines_cons] at hr
    exact absurd (List.append_eq_nil.mp hr).1 (segLines_ne_nil (h seg (by simp)))

theorem renderLines_single_empty {segs : List DocSegment}
    (h : ∀ seg ∈ segs, segWF seg) (hr : renderLines segs = [[]]) :
    segs = [DocSegment.text [[]]] := by
  cases segs with
  | nil => simp [renderLines] at hr
  | cons seg rest =>
    rw [renderLines_cons] at hr
    have hlen := congrArg List.length hr
    simp only [List.length_append, List.length_singleton] at hlen
    have hsegne := segLines_ne_nil (h seg (by simp))
    have hseg1 : (segLines seg).length = 1 ∧ (renderLines rest).length = 0 := by
      have := List.length_pos.mpr hsegne
      omega
    have hrest : rest = [] := renderLines_eq_nil (fun x hx => h x (by simp [hx]))
      (List.length_eq_zero.mp hseg1.2)
    subst hrest
    cases seg with
    | text tl =>
      have : segLines (DocSegment.text tl) = tl := rfl
      rw [this] at hr
      simp only [renderLines, List.map_nil, List.flatten_nil, List.append_nil] at hr
      rw [hr]
    | sec s =>
      exfalso
      have : (segLines (DocSegment.sec s)).length = s.content_lines.length + 3 := by
        simp [segLines]
      omega

theorem joinNL_single (l : Chars) : joinNL [l] = l := by
  simp [joinNL, List.intercalate]

theorem joinNL_cons_cons (a b : Chars) (t : List Chars) :
    joinNL (a :: b :: t) = a ++ '\n' :: joinNL (b :: t) := by
  simp only [joinNL, List.intercalate, List.intersperse_cons_cons, List.flatten_cons]
  simp

theorem joinNL_eq_nil_cases {L : List Chars} (h : joinNL L = []) :
    L = [] ∨ L = [[]] := by
  cases L with
  | nil => exact Or.inl rfl
  | cons a t =>
    cases t with
    | nil =>
      rw [joinNL_single] at h
      subst h
      exact Or.inr rfl
    | cons b t' =>
      rw [joinNL_cons_cons] at h
      exact absurd h (by simp)

/-- Re-parsing a rendered well-formed document recovers the same sections,
names, and rendered text. -/
theorem reparse_render {d : AgentsDoc} (hwf : docWF d.segments)
    (hend : NoOwnEnd d.segments) :
    ∃ d2 : AgentsDoc, AgentsDoc.parse d.render = some d2 ∧
      sectionNamesL d2.segments = sectionNamesL d.segments ∧
      (∀ n, getSectionL d2.segments n = getSectionL d.segments n) ∧
      d2.render = d.render := by
  by_cases h1 : renderLines d.segments = [[]]
  · have hsegs : d.segments = [DocSegment.text [[]]] := renderLines_single_empty hwf.1 h1
    refine ⟨⟨[]⟩, ?_, ?_, ?_, ?_⟩
    · have hren : d.render = [] := by
        unfold AgentsDoc.render
        rw [h1]
        rfl
      rw [hren]
      rfl
    · rw [hsegs]
      rfl
    · intro n
      rw [hsegs]
      rfl
    · unfold AgentsDoc.render
      rw [h1]
      rfl
  · by_cases h0 : renderLines d.segments = []
    · have hsegs : d.segments = [] := renderLines_eq_nil hwf.1 h0
      refine ⟨d, ?_, rfl, fun _ => rfl, rfl⟩
      have hren : d.render = [] := by
        unfold AgentsDoc.render
        rw [h0]
        rfl
      rw [hren]
      show (parseLines (splitPTN [])).map AgentsDoc.mk = some d
      rw [show splitPTN [] = [] from rfl]
      show some (AgentsDoc.mk []) = some d
      rw [← hsegs]
    · have hne : d.render ≠ [] := by
        intro hc
        unfold AgentsDoc.render at hc
        rcases joinNL_eq_nil_cases hc with hc' | hc'
        · exact h0 hc'
        · exact h1 hc'
      refine ⟨d, ?_, rfl, fun _ => rfl, rfl⟩
      unfold AgentsDoc.parse
      have hsplit : splitPTN d.render = renderLines d.segments := by
        unfold splitPTN
        rw [if_neg hne]
        unfold AgentsDoc.render joinNL
        exact List.splitOn_intercalate _ '\n'
          (fun l hl hc => renderLines_no_newline hwf.1 l hl hc) h0
      rw [hsplit]
      rw [parseLines_eq_runP]
      have := @runP_renderLines d.segments [] [] hwf hend
        (fun hc => absurd rfl hc)
      rw [show pInit = (⟨[], [], PMode.top⟩ : PState) from rfl, this]
      rfl

/-! ### C4: a second sync run is a no-op -/

/-- After the `run_sync` loop, every name known to the final store or final
document is valid and carries normalized-equal contents on both sides. -/
theorem foldSync_union_post {df : Chars → Chars → List Change}
    {ch : Chars → Nat → Choice} {store : Store} {doc0 : AgentsDoc} {st : SyncState}
    (hf : (allNamesOf doc0.sectionNames (storeNames store)).foldlM (syncStep df ch)
      ⟨store, doc0, [], [], [], false⟩ = some st) :
    ∀ n : Chars, (n ∈ st.doc.sectionNames ∨ n ∈ storeNames st.store) →
      validateName n = true ∧
        ∃ c s, storeLookup st.store n = some c ∧ st.doc.getSection n = some s ∧
          normalizeContent c = normalizeContent s.contentString := by
  intro n hn
  have hsome : (storeLookup st.store n).isSome = true ∨
      (st.doc.getSection n).isSome = true := by
    rcases hn with hn | hn
    · exact Or.inr (getSection_mem_sectionNames.mpr hn)
    · exact Or.inl (storeLookup_isSome_iff.mpr hn)
  have hmem : n ∈ allNamesOf doc0.sectionNames (storeNames store) := by
    rcases hsome with hsome | hsome
    · rcases (foldSync_no_new hf).1 hsome with h' | h'
      · exact mem_allNamesOf.mpr (Or.inr (storeLookup_isSome_iff.mp h'))
      · exact h'
    · rcases (foldSync_no_new hf).2 hsome with h' | h'
      · exact mem_allNamesOf.mpr (Or.inl (getSection_mem_sectionNames.mp h'))
      · exact h'
  have hside : (storeLookup store n).isSome = true ∨
      (doc0.getSection n).isSome = true := by
    rcases mem_allNamesOf.mp hmem with h' | h'
    · exact Or.inr (getSection_mem_sectionNames.mpr h')
    · exact Or.inl (storeLookup_isSome_iff.mpr h')
  exact ⟨foldSync_valid hf n hmem,
    foldSync_post (nodup_allNamesOf _ _) hf hmem hside⟩

/-- C4 (corrected): if the first run succeeds and no section of its
resulting document contains a content line that reads as that section's own
end marker, the second run — on the store and document file left by the
first run, with no external change — is a no-op: it issues no conflict
prompts, writes no fragment, inserts or replaces no section, and does not
write the document file. -/
theorem c4_second_run_noop {df df2 : Chars → Chars → List Change}
    {ch ch2 : Chars → Nat → Choice} {store : Store} {file : Option Chars}
    {r1 : SyncResult}
    (h1 : runSync df ch store file = some r1)
    (hend : NoOwnEnd r1.doc.segments) :
    ∃ r2, runSync df2 ch2 r1.store r1.fileAfter = some r2 ∧
      r2.conflicts = [] ∧ r2.skillWrites = [] ∧ r2.upserts = [] ∧
      r2.docWritten = false ∧ r2.store = r1.store ∧ r2.fileAfter = r1.fileAfter := by
  obtain ⟨doc0, st, hp, hf, hst, hdoc, hrend, hsw, hups, hcf, hupd, hwrt, hfa⟩ :=
    runSync_spec h1
  have hdoc0WF : docWF doc0.segments := by
    cases file with
    | none =>
      replace hp : some AgentsDoc.empty = some doc0 := hp
      injection hp with hp
      rw [← hp]
      exact docWF_nil
    | some t =>
      replace hp : AgentsDoc.parse t = some doc0 := hp
      exact parse_docWF hp
  have hWF1 : docWF st.doc.segments := foldSync_docWF hf hdoc0WF
  have hend' : NoOwnEnd st.doc.segments := by
    rw [← hdoc]
    exact hend
  have hfile : r1.fileAfter = some st.doc.render := by
    rw [hfa]
    split
    · rfl
    · rename_i hw
      rw [Bool.or_eq_true_iff] at hw
      push_neg at hw
      have := of_decide_eq_false (Bool.not_eq_true _ ▸ hw.2 : decide (¬ file = some st.doc.render) = false)
      push_neg at this
      exact this
  obtain ⟨d2, hparse2, hnames2, hgets2, hrender2⟩ := reparse_render hWF1 hend'
  have hmatch : ∀ n ∈ allNamesOf d2.sectionNames (storeNames st.store),
      validateName n = true ∧
        ∃ c s, storeLookup st.store n = some c ∧ d2.getSection n = some s ∧
          normalizeContent c = normalizeContent s.contentString := by
    intro n hn
    have hn' : n ∈ st.doc.sectionNames ∨ n ∈ storeNames st.store := by
      rcases mem_allNamesOf.mp hn with h' | h'
      · refine Or.inl ?_
        have : AgentsDoc.sectionNames d2 = AgentsDoc.sectionNames st.doc := hnames2
        rwa [this] at h'
      · exact Or.inr h'
    obtain ⟨hv, c, s, hc, hs, heq⟩ := foldSync_union_post hf n hn'
    refine ⟨hv, c, s, hc, ?_, heq⟩
    show getSectionL d2.segments n = some s
    rw [hgets2 n]
    exact hs
  have hfold2 : (allNamesOf d2.sectionNames (storeNames st.store)).foldlM
      (syncStep df2 ch2) ⟨st.store, d2, [], [], [], false⟩ =
      some ⟨st.store, d2, [], [], [], false⟩ :=
    foldSync_allMatching_id fun n hn => hmatch n hn
  have hw2 : (decide (¬ (some st.doc.render : Option Chars) = some d2.render)) = false := by
    rw [hrender2]
    simp
  have hrun2 : runSync df2 ch2 st.store (some st.doc.render) =
      some ⟨st.store, d2, d2.render, [], [], [], false, false, some st.doc.render⟩ := by
    unfold runSync
    have e1 : readAgentsDoc (some st.doc.render) = some d2 := hparse2
    rw [e1]
    show (match (allNamesOf d2.sectionNames (storeNames st.store)).foldlM
        (syncStep df2 ch2) ⟨st.store, d2, [], [], [], false⟩ with
      | none => none
      | some st' =>
        some (⟨st'.store, st'.doc, st'.doc.render, st'.skillWrites, st'.upserts,
          st'.conflicts, st'.updated,
          st'.updated || decide (¬ some st.doc.render = some st'.doc.render),
          if (st'.updated || decide (¬ some st.doc.render = some st'.doc.render)) = true
            then some st'.doc.render else some st.doc.render⟩ : SyncResult)) = _
    rw [hfold2]
    simp only [hw2, Bool.or_false, Option.some.injEq]
    exact SyncResult.mk.injEq .. ▸ by
      simp [hrender2]
  refine ⟨⟨st.store, d2, d2.render, [], [], [], false, false, some st.doc.render⟩,
    ?_, rfl, rfl, rfl, rfl, hst.symm, hfile.symm⟩
  rw [hst, hfile]
  exact hrun2

/-- A stub line diff for concrete runs: delete all of the left, insert all
of the right. -/
def c4DiffStub : Chars → Chars → List Change :=
  fun l r => [⟨DiffTag.del, l⟩, ⟨DiffTag.ins, r⟩]

/-- A stub decision function always choosing the skill side. -/
def c4ChooseStub : Chars → Nat → Choice := fun _ _ => Choice.skill

/-- A store whose fragment `a` contains the end marker of its own section
as a content line. -/
def c4Store : Store :=
  [("a".toList, "X\n<!-- prime-agent(End a) -->\nY".toList)]

/-- C4, counterexample: with fragment `a` containing its own end-marker
line, the first run embeds it verbatim; re-parsing truncates the section at
that line, so the second run — with no external change — finds diverged
contents, prompts for a conflict on `a`, writes the fragment, and rewrites
the document file. -/
theorem c4_idempotence_counterexample :
    ((runSync c4DiffStub c4ChooseStub c4Store none).bind
        (fun r1 => runSync c4DiffStub c4ChooseStub r1.store r1.fileAfter)).map
      (fun r2 => (r2.conflicts, r2.skillWrites.isEmpty, r2.docWritten)) =
      some ([("a".toList : Chars)], false, true) := by
  decide

/-- C4, witness: the second run at a concrete matching run is a no-op. -/
theorem c4_second_run_noop_witness :
    ∃ r2, runSync c4DiffStub c4ChooseStub c10Res.store c10Res.fileAfter = some r2 ∧
      r2.conflicts = [] ∧ r2.skillWrites = [] ∧ r2.upserts = [] ∧
      r2.docWritten = false ∧ r2.store = c10Res.store ∧
      r2.fileAfter = c10Res.fileAfter :=
  c4_second_run_noop
    (show runSync c4DiffStub c4ChooseStub [("a".toList, "X".toList)] none = some c10Res
      from by decide)
    (by decide)

end PrimeAgent
